import Mathlib

/-!
Verification of the AtomicDB document store (src/src/atomicdb) against its
natural-language specification.  The Python source is shallowly embedded:
Python dicts become association lists, machine behaviour that can raise
becomes `Except PyErr`, and the stateful methods of `AtomicDB`,
`IndexManager`, `Index`, `Schema`, `QueryResult` and `ConnectionPool` become
pure state-passing functions.  Every definition follows the corresponding
Python function line by line; file and line references are given in the doc
comments.
-/

namespace AtomicDb

/-- Python exceptions that the embedded code can raise.  `typeError` covers
`TypeError` (bad comparisons, wrong constructor arity), `keyError` covers
`KeyError` (missing collection), `attributeError` covers `AttributeError`
(calling a method that does not exist), `validationError` is
`schema.ValidationError`, `valueError` is `ValueError`. -/
inductive PyErr where
  | typeError
  | keyError
  | attributeError
  | validationError
  | valueError
  | runtimeError
  | queueEmpty
deriving DecidableEq

/-- Atomic (non-container) Python values used by the database: `None`,
`int`, `bool`, `str`.  Floats are not modelled. -/
inductive PyAtom where
  | vnone
  | vint (n : Int)
  | vbool (b : Bool)
  | vstr (s : String)
deriving DecidableEq

/-- A Python value: an atom, a list of atoms, or a dict mapping strings to
atoms (one level of nesting, which is all the verified claims need). -/
inductive PyVal where
  | atom (a : PyAtom)
  | vlist (l : List PyAtom)
  | vobj (m : List (String × PyAtom))
deriving DecidableEq

/-- A document: a Python dict from field names to values, embedded as an
association list in insertion order (lookup takes the first occurrence). -/
abbrev Doc := List (String × PyVal)

/-- First-occurrence lookup in an association list (Python `dict[k]` /
`dict.get(k)`). -/
def alookup {β : Type} : List (String × β) → String → Option β
  | [], _ => none
  | (k', v) :: rest, k => if k' = k then some v else alookup rest k

/-- Python `k in dict`. -/
def akey {β : Type} (l : List (String × β)) (k : String) : Bool :=
  (alookup l k).isSome

/-- Python `dict[k] = v`: overwrite the first occurrence in place, or append
a new entry at the end (insertion-order semantics). -/
def aset {β : Type} : List (String × β) → String → β → List (String × β)
  | [], k, v => [(k, v)]
  | (k', v') :: rest, k, v =>
      if k' = k then (k', v) :: rest else (k', v') :: aset rest k v

/-- `doc.get(field)`: the field's value, or `None` when absent. -/
def dgetD (d : Doc) (f : String) : PyVal :=
  (alookup d f).getD (PyVal.atom .vnone)

/-- Python `dict.update(other)`: shallow merge — existing keys are
overwritten in place, new keys are appended (`database.py` line 171/182:
`doc.update(fields)`). -/
def dmerge (d : Doc) (updates : Doc) : Doc :=
  updates.foldl (fun acc kv => aset acc kv.1 kv.2) d

/-- Python `dict.copy()`: a shallow copy.  In this pure embedding values are
immutable, so the copy is extensionally the identity; the aliasing
distinction the copy makes in Python is discussed where it matters. -/
def pycopy (d : Doc) : Doc := d

/-- Python `str(value)`, as applied to a field value by `Field.matches`
(`queries.py` line 39). -/
def pystr (v : PyVal) : String :=
  match v with
  | .atom .vnone => "None"
  | .atom (.vint n) => toString n
  | .atom (.vbool b) => if b then "True" else "False"
  | .atom (.vstr s) => s
  | .vlist _ => "[...]"
  | .vobj _ => "{...}"

/-- Python `<` on atoms: numbers compare numerically (`bool` coerces to
`int`, as in Python), strings compare lexicographically, and every other
pair — in particular anything involving `None` — raises `TypeError`. -/
def atomLt : PyAtom → PyAtom → Except PyErr Bool
  | .vint a, .vint b => .ok (decide (a < b))
  | .vint a, .vbool b => .ok (decide (a < (if b then 1 else 0)))
  | .vbool a, .vint b => .ok (decide ((if a then 1 else 0 : Int) < b))
  | .vbool a, .vbool b => .ok (decide ((if a then 1 else 0 : Int) < (if b then 1 else 0)))
  | .vstr a, .vstr b => .ok (decide (a < b))
  | _, _ => .error .typeError

/-- Python `<` on lists: find the first index where the elements differ
(using `==`, which never raises) and compare those elements with `<`; a
strict prefix is smaller. -/
def listLt : List PyAtom → List PyAtom → Except PyErr Bool
  | [], [] => .ok false
  | [], _ :: _ => .ok true
  | _ :: _, [] => .ok false
  | a :: as, b :: bs => if a = b then listLt as bs else atomLt a b

/-- Python `<` on the modelled values.  Dicts are unorderable. -/
def pyLt : PyVal → PyVal → Except PyErr Bool
  | .atom a, .atom b => atomLt a b
  | .vlist a, .vlist b => listLt a b
  | _, _ => .error .typeError

/-! ## Predicate / query engine (`queries.py`)

In the source a `Query` wraps an opaque closure; the closures are only ever
built by the `Field` comparison methods (`queries.py` lines 12-63) and the
`__and__`/`__or__`/`__invert__` combinators (lines 77-87), so the embedding
represents a built query as the syntax tree of those constructors and
evaluates it with `matchE`.  A regex leaf carries the compiled pattern as an
abstract string test. -/

/-- A built `Query` value.  Each constructor corresponds to one closure
shape from `queries.py`: `qtrue` is the default test (line 70), the leaves
are the `Field` operators, and `qand`/`qor`/`qnot` are the combinators. -/
inductive Query where
  | qtrue
  | qeq (f : String) (v : PyVal)
  | qne (f : String) (v : PyVal)
  | qgt (f : String) (v : PyVal)
  | qlt (f : String) (v : PyVal)
  | qge (f : String) (v : PyVal)
  | qle (f : String) (v : PyVal)
  | qmatches (f : String) (test : String → Bool)
  | qcontains (f : String) (v : PyVal)
  | qexists (f : String)
  | qtype (f : String) (t : String)
  | qand (a b : Query)
  | qor (a b : Query)
  | qnot (a : Query)

/-- Python `value in container` as used by `Field.contains` (`queries.py`
line 43): membership for lists, substring test for strings, key test for
dicts, `TypeError` otherwise.  A missing field defaults to `[]`. -/
def pyContains (v : PyVal) (container : Option PyVal) : Except PyErr Bool :=
  match container with
  | none => .ok false
  | some (.vlist l) =>
      match v with
      | .atom a => .ok (decide (a ∈ l))
      | _ => .ok false
  | some (.atom (.vstr s)) =>
      match v with
      | .atom (.vstr sub) => .ok (decide (sub.toList <:+: s.toList))
      | _ => .error .typeError
  | some (.atom _) => .error .typeError
  | some (.vobj m) =>
      match v with
      | .atom (.vstr k) => .ok (akey m k)
      | .atom _ => .ok false
      | _ => .error .typeError

/-- `isinstance(value, type_map[t])` for the names accepted by `Field.type`
(`queries.py` lines 51-59).  `Field.type` raises `ValueError` for any other
name before a query is ever built, so unrecognised names cannot reach a
query tree; they evaluate to `false` here. -/
def typeIsinstance (t : String) (v : PyVal) : Bool :=
  match t with
  | "str" => match v with | .atom (.vstr _) => true | _ => false
  | "int" =>
      -- Python: `isinstance(True, int)` holds, bools are ints.
      match v with | .atom (.vint _) => true | .atom (.vbool _) => true | _ => false
  | "float" => false
  | "bool" => match v with | .atom (.vbool _) => true | _ => false
  | "list" => match v with | .vlist _ => true | _ => false
  | "dict" => match v with | .vobj _ => true | _ => false
  | "null" => match v with | .atom .vnone => true | _ => false
  | _ => false

/-- `Query.match(document)` (`queries.py` line 89): evaluate the composed
test.  Comparisons delegate to Python's operators and can raise
`TypeError`, exactly as the closures do (`doc.get(name) > value` with a
missing field compares `None`, which raises). -/
def Query.matchE : Query → Doc → Except PyErr Bool
  | .qtrue, _ => .ok true
  | .qeq f v, d => .ok (decide (dgetD d f = v))
  | .qne f v, d => .ok (decide (dgetD d f ≠ v))
  | .qgt f v, d => pyLt v (dgetD d f)
  | .qlt f v, d => pyLt (dgetD d f) v
  | .qge f v, d =>
      match pyLt (dgetD d f) v with
      | .error e => .error e
      | .ok b => .ok (!b)
  | .qle f v, d =>
      match pyLt v (dgetD d f) with
      | .error e => .error e
      | .ok b => .ok (!b)
  | .qmatches f test, d => .ok (test (pystr (dgetD d f)))
  | .qcontains f v, d => pyContains v (alookup d f)
  | .qexists f, d => .ok (akey d f)
  | .qtype f t, d => .ok (typeIsinstance t (dgetD d f))
  | .qand a b, d =>
      -- `lambda doc: self.test(doc) and other.test(doc)`: short-circuit.
      match a.matchE d with
      | .error e => .error e
      | .ok ba => if ba then b.matchE d else .ok false
  | .qor a b, d =>
      match a.matchE d with
      | .error e => .error e
      | .ok ba => if ba then .ok true else b.matchE d
  | .qnot a, d =>
      match a.matchE d with
      | .error e => .error e
      | .ok b => .ok (!b)

/-- `Query.get_equality_conditions` (`queries.py` lines 93-96): the source
returns the empty dict unconditionally ("This is a placeholder for more
complex implementations"). -/
def Query.get_equality_conditions (_ : Query) : List (String × PyVal) := []

/-! ## Query results (`results.py`) -/

/-- `QueryResult` (`results.py` line 5): a wrapper around the list of
documents produced by a query. -/
structure QueryResult where
  documents : List Doc
deriving DecidableEq

/-- Calling the `QueryResult` class with `posArgs` positional arguments.
`QueryResult.__init__` (`results.py` line 8) accepts exactly one positional
argument besides `self` (`documents`); any other arity raises `TypeError`.
`database.py` calls `QueryResult(docs, self)` — two positional arguments. -/
def QueryResult.construct (posArgs : Nat) (docs : List Doc) : Except PyErr QueryResult :=
  if posArgs = 1 then .ok ⟨docs⟩ else .error .typeError

/-- `not (a < b)` over Python values, propagating the comparison's
`TypeError`. -/
def pyNotLt (a b : PyVal) : Except PyErr Bool :=
  match pyLt a b with
  | .error e => .error e
  | .ok r => .ok (!r)

/-- Stable insertion step: place `x` before the first `y` with
`cmp x y = true`, walking past smaller elements; a failing comparison
aborts with its error. -/
def insertE (cmp : Doc → Doc → Except PyErr Bool) (x : Doc) :
    List Doc → Except PyErr (List Doc)
  | [] => .ok [x]
  | y :: ys =>
      match cmp x y with
      | .error e => .error e
      | .ok true => .ok (x :: y :: ys)
      | .ok false =>
          match insertE cmp x ys with
          | .error e => .error e
          | .ok r => .ok (y :: r)

/-- Stable insertion sort in the `Except` monad.  Python's `sorted` is a
stable comparison sort (Timsort); any stable comparison sort computes the
same output on comparable keys, and both raise `TypeError` exactly when the
key multiset mixes incomparable values (every sort of two or more elements
must compare an incomparable pair across classes at least once). -/
def sortE (cmp : Doc → Doc → Except PyErr Bool) : List Doc → Except PyErr (List Doc)
  | [] => .ok []
  | x :: xs =>
      match sortE cmp xs with
      | .error e => .error e
      | .ok r => insertE cmp x r

/-- `QueryResult.sort_by(field, reverse)` (`results.py` lines 71-82):
`sorted(self._documents, key=lambda x: x.get(field), reverse=reverse)`.
The key of a document missing `field` is `None`.  Ascending placement:
`x` goes before the first `y` with `key x ≤ key y` (i.e. not
`key y < key x`), which is exactly stable ascending order; with
`reverse=True` the comparison is flipped while equal keys keep their
original relative order, as Python documents. -/
def QueryResult.sort_by (r : QueryResult) (field : String) (reverse : Bool) :
    Except PyErr QueryResult :=
  let key := fun d => dgetD d field
  let cmp := fun x y => if reverse then pyNotLt (key x) (key y) else pyNotLt (key y) (key x)
  match sortE cmp r.documents with
  | .error e => .error e
  | .ok docs => .ok ⟨docs⟩

/-! ## Secondary indexes (`indexes.py`) -/

/-- First-occurrence lookup in an association list with arbitrary keys
(Python `dict[k]` / `dict.get(k)`). -/
def blookup {α β : Type} [DecidableEq α] : List (α × β) → α → Option β
  | [], _ => none
  | (k', v) :: rest, k => if k' = k then some v else blookup rest k

/-- Python `k in dict` for arbitrary keys. -/
def bkey {α β : Type} [DecidableEq α] (l : List (α × β)) (k : α) : Bool :=
  (blookup l k).isSome

/-- An index key: the tuple of the document's values on the indexed fields,
in declared field order. -/
abbrev IdxKey := List PyVal

/-- `Index` (`indexes.py` line 3): declared fields plus the mapping from
value tuples to the set of document positions (a Python `set`, embedded as
an insertion-ordered duplicate-free list). -/
structure Index where
  fields : List String
  buckets : List (IdxKey × List Nat)
deriving DecidableEq

/-- `Index._get_key` (`indexes.py` lines 56-61): the tuple
`(doc[field] for field in fields)`, or `None` if any field is missing. -/
def Index.getKey (idx : Index) (d : Doc) : Option IdxKey :=
  idx.fields.mapM (alookup d)

/-- `self._index.setdefault(key, set()).add(doc_id)` behaviour of
`Index.add_document`: create the bucket if absent, then add the position
(idempotently, `set.add`). -/
def bucketsAdd : List (IdxKey × List Nat) → IdxKey → Nat → List (IdxKey × List Nat)
  | [], k, i => [(k, [i])]
  | (k', b) :: rest, k, i =>
      if k' = k then (k', if i ∈ b then b else b ++ [i]) :: rest
      else (k', b) :: bucketsAdd rest k i

/-- `Index.remove_document`'s bucket step: `set.discard(doc_id)` on the
bucket, deleting the bucket when it becomes empty (`indexes.py` lines
22-24).  A missing bucket is left untouched, which also covers the
`key in self._index` guard. -/
def bucketsDiscard : List (IdxKey × List Nat) → IdxKey → Nat → List (IdxKey × List Nat)
  | [], _, _ => []
  | (k', b) :: rest, k, i =>
      if k' = k then
        let b2 := b.filter (fun x => x ≠ i)
        if b2.isEmpty then rest else (k', b2) :: rest
      else (k', b) :: bucketsDiscard rest k i

/-- `Index.add_document(doc_id, doc)` (`indexes.py` lines 10-16): documents
missing an indexed field are silently excluded. -/
def Index.add_document (idx : Index) (doc_id : Nat) (d : Doc) : Index :=
  match idx.getKey d with
  | none => idx
  | some key => { idx with buckets := bucketsAdd idx.buckets key doc_id }

/-- `Index.remove_document(doc_id, doc)` (`indexes.py` lines 18-24). -/
def Index.remove_document (idx : Index) (doc_id : Nat) (d : Doc) : Index :=
  match idx.getKey d with
  | none => idx
  | some key => { idx with buckets := bucketsDiscard idx.buckets key doc_id }

/-- `Index.update_document(doc_id, old_doc, new_doc)` (`indexes.py` lines
26-42): no-op when the key tuple is unchanged, otherwise retract from the
old bucket and insert into the new one. -/
def Index.update_document (idx : Index) (doc_id : Nat) (dOld dNew : Doc) : Index :=
  let okey := idx.getKey dOld
  let nkey := idx.getKey dNew
  if okey = nkey then idx
  else
    let bs :=
      match okey with
      | some k => bucketsDiscard idx.buckets k doc_id
      | none => idx.buckets
    let bs2 :=
      match nkey with
      | some k => bucketsAdd bs k doc_id
      | none => bs
    { idx with buckets := bs2 }

/-- `Index.find_one(values)` (`indexes.py` lines 44-49).  The source
returns `next(iter(set))` — an unspecified member; this model fixes the
deterministic first member of the bucket. -/
def Index.find_one (idx : Index) (values : List PyVal) : Option Nat :=
  match blookup idx.buckets values with
  | some b => b.head?
  | none => none

/-- `Index.find_all(values)` (`indexes.py` lines 51-54). -/
def Index.find_all (idx : Index) (values : List PyVal) : List Nat :=
  (blookup idx.buckets values).getD []

/-- `IndexManager` (`indexes.py` line 63): indexes keyed by the sorted
tuple of their field names. -/
abbrev IndexManager := List (List String × Index)

/-- Python `tuple(sorted(fields))`. -/
def sortedFields (fields : List String) : List String :=
  List.insertionSort (fun a b => a ≤ b) fields

/-- `IndexManager.create_index(fields)` (`indexes.py` lines 70-74). -/
def IndexManager.create_index (mgr : IndexManager) (fields : List String) : IndexManager :=
  let key := sortedFields fields
  if bkey mgr key then mgr else mgr ++ [(key, ⟨fields, []⟩)]

/-- `IndexManager.has_index(fields)` (`indexes.py` lines 82-85). -/
def IndexManager.has_index (mgr : IndexManager) (fields : List String) : Bool :=
  bkey mgr (sortedFields fields)

/-- `IndexManager.get_index(fields)` (`indexes.py` lines 87-90). -/
def IndexManager.get_index (mgr : IndexManager) (fields : List String) : Option Index :=
  blookup mgr (sortedFields fields)

/-- `IndexManager.add_document` (`indexes.py` lines 92-95): add to every
index. -/
def IndexManager.add_document (mgr : IndexManager) (doc_id : Nat) (d : Doc) : IndexManager :=
  mgr.map fun e => (e.1, e.2.add_document doc_id d)

/-- `IndexManager.remove_document` (`indexes.py` lines 97-100). -/
def IndexManager.remove_document (mgr : IndexManager) (doc_id : Nat) (d : Doc) : IndexManager :=
  mgr.map fun e => (e.1, e.2.remove_document doc_id d)

/-- `IndexManager.update_document` (`indexes.py` lines 102-105). -/
def IndexManager.update_document (mgr : IndexManager) (doc_id : Nat) (dOld dNew : Doc) : IndexManager :=
  mgr.map fun e => (e.1, e.2.update_document doc_id dOld dNew)

/-- `IndexManager.clear` (`indexes.py` lines 107-109). -/
def IndexManager.clear (_ : IndexManager) : IndexManager := []

/-! ## Schema validation (`schema.py`) -/

/-- One field's schema entry: `{"required": bool, "type": str}` with both
keys optional (`field_schema.get("required", False)`,
`field_schema.get("type")`). -/
structure FieldSchema where
  required : Bool
  ftype : Option String
deriving DecidableEq

/-- A collection schema: field name to field schema, in declaration order. -/
abbrev SchemaDef := List (String × FieldSchema)

/-- The typed checks of `Schema._validate_against_schema` (`schema.py`
lines 73-82): a present value violates the declared type exactly when the
type name is one of the five recognised ones and the `isinstance` test
fails.  Unrecognised type names are never checked.  Note the Python quirk
`isinstance(True, int)`: bools pass the `"number"` check. -/
def typeViolation (ft : String) (v : PyVal) : Bool :=
  match ft with
  | "string" => match v with | .atom (.vstr _) => false | _ => true
  | "number" => match v with | .atom (.vint _) => false | .atom (.vbool _) => false | _ => true
  | "boolean" => match v with | .atom (.vbool _) => false | _ => true
  | "object" => match v with | .vobj _ => false | _ => true
  | "array" => match v with | .vlist _ => false | _ => true
  | _ => false

/-- The per-field step of `Schema._validate_against_schema` (`schema.py`
lines 64-82): missing required field or type violation raises
`ValidationError`. -/
def validateField (d : Doc) (f : String) (fs : FieldSchema) : Except PyErr Unit :=
  match alookup d f with
  | none => if fs.required then .error .validationError else .ok ()
  | some v =>
      match fs.ftype with
      | some ft => if typeViolation ft v then .error .validationError else .ok ()
      | none => .ok ()

/-- `Schema._validate_against_schema` (`schema.py` lines 54-82): scan the
schema fields in declaration order and raise at the first violation. -/
def validateAgainstSchema (sch : SchemaDef) (d : Doc) : Except PyErr Unit :=
  match sch with
  | [] => .ok ()
  | (f, fs) :: rest =>
      match validateField d f fs with
      | .error e => .error e
      | .ok _ => validateAgainstSchema rest d

/-- `Schema.validate_document` (`schema.py` lines 35-52): collections
without a registered schema, and empty schemas, validate trivially. -/
def Schema.validate_document (schemas : List (String × SchemaDef)) (c : String) (d : Doc) :
    Except PyErr Unit :=
  match alookup schemas c with
  | none => .ok ()
  | some sch => if sch.isEmpty then .ok () else validateAgainstSchema sch d

/-- Whether document `d` violates the single schema entry `(f, fs)`:
required but missing, or present with a violating declared type. -/
def fieldViolation (d : Doc) (f : String) (fs : FieldSchema) : Bool :=
  match alookup d f with
  | none => fs.required
  | some v =>
      match fs.ftype with
      | some ft => typeViolation ft v
      | none => false

/-- Specification-side violation predicate: some schema field is required
but missing, or present with a violating declared type. -/
def violatesSchema (sch : SchemaDef) (d : Doc) : Bool :=
  sch.any fun e => fieldViolation d e.1 e.2

/-! ## The database (`database.py`)

`AtomicDB`'s mutable attributes become a state record.  Persistence is
external (spec §6) and is tracked only by effect counters: `saves` counts
`self._save()` calls and `storageClears` counts `self._storage.clear()`
calls.  The `Schema._metadata` bookkeeping written by
`update_metadata` is not represented: no verified claim mentions it and it
feeds back into nothing. -/

/-- The mutable state of an `AtomicDB` instance. -/
structure DBState where
  collections : List (String × List Doc)
  indexes : IndexManager
  schemas : List (String × SchemaDef)
  saves : Nat
  storageClears : Nat
deriving DecidableEq

/-- A query argument: `Union[Query, Callable[[Dict], bool]]`.  A Python
callable may itself raise, but it is embedded as the total boolean test the
spec describes ("arbitrary boolean function"). -/
inductive QueryArg where
  | builtQ (q : Query)
  | callable (f : Doc → Bool)

/-- The per-document test each branch of the source applies:
`query.match(doc)` for a `Query`, `query(doc)` for a callable. -/
def QueryArg.matcher : QueryArg → Doc → Except PyErr Bool
  | .builtQ q => q.matchE
  | .callable f => fun d => .ok (f d)

/-- A Python list comprehension `[doc for doc in docs if test(doc)]` with a
test that can raise: elements are tested left to right and the first error
aborts. -/
def filterE (f : Doc → Except PyErr Bool) : List Doc → Except PyErr (List Doc)
  | [] => .ok []
  | d :: ds =>
      match f d with
      | .error e => .error e
      | .ok true =>
          match filterE f ds with
          | .error e => .error e
          | .ok r => .ok (d :: r)
      | .ok false => filterE f ds

/-- The document list `AtomicDB.get` (`database.py` lines 115-133) builds
before wrapping it in a `QueryResult`.  The index branch calls
`self._indexes.find_one(fields, ...)` — a method `IndexManager` does not
define — so it raises `AttributeError`; it is unreachable because
`get_equality_conditions` is always empty. -/
def getDocs (s : DBState) (q : QueryArg) (c : String) : Except PyErr (List Doc) :=
  match alookup s.collections c with
  | none => .error .keyError
  | some docs =>
      match q with
      | .callable f => .ok (docs.filter f)
      | .builtQ qq =>
          let conditions := qq.get_equality_conditions
          if conditions.isEmpty then filterE qq.matchE docs
          else if s.indexes.has_index (conditions.map Prod.fst) then .error .attributeError
          else filterE qq.matchE docs

/-- The document list `AtomicDB.search` (`database.py` lines 135-155)
builds: index lookup when the extracted conditions' field set has an index
(positions out of range are skipped, hits are copied), otherwise a full
scan evaluating the query per document. -/
def searchDocs (s : DBState) (q : QueryArg) (c : String) : Except PyErr (List Doc) :=
  match alookup s.collections c with
  | none => .error .keyError
  | some docs =>
      match q with
      | .callable f => .ok (docs.filter f)
      | .builtQ qq =>
          let conditions := qq.get_equality_conditions
          if conditions.isEmpty then filterE qq.matchE docs
          else if s.indexes.has_index (conditions.map Prod.fst) then
            match s.indexes.get_index (conditions.map Prod.fst) with
            | some index =>
                let doc_ids := index.find_all (conditions.map Prod.snd)
                .ok (doc_ids.filterMap fun i =>
                  if i < docs.length then (docs.get? i).map pycopy else none)
            | none => filterE qq.matchE docs
          else filterE qq.matchE docs

/-- `AtomicDB.get` (`database.py` lines 115-133): build the document list,
then `return QueryResult(docs, self)` — two positional arguments. -/
def AtomicDB.get (s : DBState) (q : QueryArg) (c : String) : Except PyErr QueryResult :=
  match getDocs s q c with
  | .error e => .error e
  | .ok docs => QueryResult.construct 2 docs

/-- `AtomicDB.search` (`database.py` lines 135-155): build the document
list, then `return QueryResult(docs, self)`. -/
def AtomicDB.search (s : DBState) (q : QueryArg) (c : String) : Except PyErr QueryResult :=
  match searchDocs s q c with
  | .error e => .error e
  | .ok docs => QueryResult.construct 2 docs

/-- `AtomicDB.all` (`database.py` lines 333-335):
`QueryResult([doc.copy() for doc in self._collections[collection]], self)`. -/
def AtomicDB.all (s : DBState) (c : String) : Except PyErr QueryResult :=
  match alookup s.collections c with
  | none => .error .keyError
  | some docs => QueryResult.construct 2 (docs.map pycopy)

/-- `AtomicDB.insert` (`database.py` lines 65-91): validate against the
schema, ensure the collection exists, append, add to all indexes, save.
The returned pair is (result, post-state); validation precedes every
mutation, so the error case leaves the state untouched. -/
def AtomicDB.insert (s : DBState) (d : Doc) (c : String) : Except PyErr Nat × DBState :=
  match Schema.validate_document s.schemas c d with
  | .error e => (.error e, s)
  | .ok _ =>
      let colls := if akey s.collections c then s.collections else s.collections ++ [(c, [])]
      let docs := (alookup colls c).getD []
      let docs2 := docs ++ [d]
      let doc_id := docs2.length - 1
      (.ok doc_id,
        { s with
            collections := aset colls c docs2
            indexes := s.indexes.add_document doc_id d
            saves := s.saves + 1 })

/-- The scan loop of `AtomicDB.update` (`database.py` lines 178-192): for
each document matching the test, `doc.update(fields)` shallow-merges in
place and the index manager is told the (old, new) pair at the document's
position.  A raising test aborts the scan, leaving earlier merges in
place. -/
def updateScan (matcher : Doc → Except PyErr Bool) (fields : Doc) :
    List Doc → Nat → IndexManager → Except PyErr Nat × List Doc × IndexManager
  | [], _, idx => (.ok 0, [], idx)
  | d :: ds, i, idx =>
      match matcher d with
      | .error e => (.error e, d :: ds, idx)
      | .ok true =>
          let d2 := dmerge d fields
          let r := updateScan matcher fields ds (i + 1) (IndexManager.update_document idx i d d2)
          (match r.1 with | .error e => .error e | .ok n => .ok (n + 1), d2 :: r.2.1, r.2.2)
      | .ok false =>
          let r := updateScan matcher fields ds (i + 1) idx
          (r.1, d :: r.2.1, r.2.2)

/-- The common tail of `AtomicDB.update`: run the scan on the collection
(`KeyError` when it does not exist), then `if count > 0: self._save()`. -/
def updateFull (s : DBState) (fields : Doc) (matcher : Doc → Except PyErr Bool) (c : String) :
    Except PyErr Nat × DBState :=
  match alookup s.collections c with
  | none => (.error .keyError, s)
  | some docs =>
      let r := updateScan matcher fields docs 0 s.indexes
      let s2 := { s with collections := aset s.collections c r.2.1, indexes := r.2.2 }
      match r.1 with
      | .error e => (.error e, s2)
      | .ok count => (.ok count, if 0 < count then { s2 with saves := s2.saves + 1 } else s2)

/-- `AtomicDB.update` (`database.py` lines 157-196).  The `Query` branch
first consults `get_equality_conditions`; were the conditions non-empty
and indexed, the source would call `self._indexes.find_all(...)`, which
`IndexManager` does not define (`AttributeError`) — unreachable, since the
conditions are always empty and the full scan runs. -/
def AtomicDB.update (s : DBState) (fields : Doc) (q : QueryArg) (c : String) :
    Except PyErr Nat × DBState :=
  match q with
  | .builtQ qq =>
      let conditions := qq.get_equality_conditions
      if conditions.isEmpty then updateFull s fields qq.matchE c
      else if s.indexes.has_index (conditions.map Prod.fst) then (.error .attributeError, s)
      else updateFull s fields qq.matchE c
  | .callable f => updateFull s fields (fun d => .ok (f d)) c

/-- The `while` loop of `AtomicDB.remove` (`database.py` lines 200-214):
on a match, `pop(i)` deletes the document at the current position `i` and
`self._indexes.remove_document(i, doc)` retracts exactly that position's
entry; only on a non-match does `i` advance.  Positions of later documents
are never re-keyed. -/
def removeScan (matcher : Doc → Except PyErr Bool) :
    List Doc → Nat → IndexManager → Except PyErr Nat × List Doc × IndexManager
  | [], _, idx => (.ok 0, [], idx)
  | d :: ds, i, idx =>
      match matcher d with
      | .error e => (.error e, d :: ds, idx)
      | .ok true =>
          let r := removeScan matcher ds i (IndexManager.remove_document idx i d)
          (match r.1 with | .error e => .error e | .ok n => .ok (n + 1), r.2.1, r.2.2)
      | .ok false =>
          let r := removeScan matcher ds (i + 1) idx
          (r.1, d :: r.2.1, r.2.2)

/-- `AtomicDB.remove` (`database.py` lines 198-218). -/
def AtomicDB.remove (s : DBState) (q : QueryArg) (c : String) :
    Except PyErr Nat × DBState :=
  match alookup s.collections c with
  | none => (.error .keyError, s)
  | some docs =>
      let r := removeScan q.matcher docs 0 s.indexes
      let s2 := { s with collections := aset s.collections c r.2.1, indexes := r.2.2 }
      match r.1 with
      | .error e => (.error e, s2)
      | .ok count => (.ok count, if 0 < count then { s2 with saves := s2.saves + 1 } else s2)

/-- `AtomicDB.clear` (`database.py` lines 220-231): empty the collection
and save when it exists, then unconditionally call the storage backend's
`clear` (both shipped backends define one).  `self._indexes` is never
touched (`IndexManager.clear` exists but is not called). -/
def AtomicDB.clear (s : DBState) (c : String) : DBState :=
  let s1 :=
    if akey s.collections c then
      { s with collections := aset s.collections c [], saves := s.saves + 1 }
    else s
  { s1 with storageClears := s1.storageClears + 1 }

/-- `AtomicDB.create_index` (`database.py` lines 341-347): register the
index, then backfill by calling `add_document(i, doc)` for every position
of every collection (positions from different collections collide; the
verified reachable states use a single collection). -/
def AtomicDB.create_index (s : DBState) (fields : List String) : DBState :=
  let mgr := s.indexes.create_index fields
  let mgr2 := s.collections.foldl
    (fun m entry => entry.2.enum.foldl (fun m2 p => IndexManager.add_document m2 p.1 p.2) m)
    mgr
  { s with indexes := mgr2 }

/-! ## Connection pool (`pool.py`)

The pool's operations each run under `self._lock` (or on the thread-safe
`queue.Queue`), so its evolution is modelled as a sequential transition
system over the guarded state: `_available` is the FIFO queue of idle
handles, `_in_use` the list of acquired handles, each handle named by a
creation ordinal.  Timeouts are modelled by their effect: a blocking
`queue.get` on an empty queue, with no concurrent `put` to satisfy it,
ends in `queue.Empty`.  One genuine concurrency artefact is kept
explicitly: when the queue times out empty and the pool is below capacity,
`get_connection` calls `_create_connection` while already holding
`self._lock`, and `threading.Lock` is not re-entrant, so that path
self-deadlocks (`deadlock` outcome, state unchanged). -/

/-- The guarded state of `ConnectionPool`. -/
structure PoolState where
  available : List Nat
  inUse : List Nat
  nextId : Nat
  maxConnections : Nat
deriving DecidableEq

/-- `ConnectionPool._create_connection` (`pool.py` lines 58-73): raise
`RuntimeError` at capacity, otherwise construct a handle and put it on the
available queue. -/
def ConnectionPool.createConnection (s : PoolState) : Except PyErr PoolState :=
  if s.maxConnections ≤ s.inUse.length + s.available.length then .error .runtimeError
  else .ok { s with available := s.available ++ [s.nextId], nextId := s.nextId + 1 }

/-- `ConnectionPool.__init__` (`pool.py` lines 36-56): empty pool, then one
initial `_create_connection` (which raises when `max_connections = 0`). -/
def ConnectionPool.init (maxConnections : Nat) : Except PyErr PoolState :=
  ConnectionPool.createConnection ⟨[], [], 0, maxConnections⟩

/-- The possible outcomes of `ConnectionPool.get_connection`. -/
inductive GetOutcome where
  | got (id : Nat)
  | exhausted
  | deadlock
deriving DecidableEq

/-- `ConnectionPool.get_connection` (`pool.py` lines 75-103).  With an
idle handle available, take it FIFO and mark it in use.  With none: after
the first `get` times out, if `len(in_use) + qsize < max_connections` the
call enters `_create_connection` holding the non-reentrant `self._lock`
and self-deadlocks; otherwise the re-raised `queue.Empty` is caught and the
final `self._available.get(timeout=...)` times out again, so `queue.Empty`
propagates — the pool-exhausted failure. -/
def ConnectionPool.get_connection (s : PoolState) : GetOutcome × PoolState :=
  match s.available with
  | id :: rest => (.got id, { s with available := rest, inUse := s.inUse ++ [id] })
  | [] =>
      if s.inUse.length + s.available.length < s.maxConnections then (.deadlock, s)
      else (.exhausted, s)

/-- `ConnectionPool.return_connection` (`pool.py` lines 105-116): a no-op
unless the handle is currently tracked in `_in_use`. -/
def ConnectionPool.return_connection (s : PoolState) (conn : Nat) : PoolState :=
  if conn ∈ s.inUse then
    { s with inUse := s.inUse.erase conn, available := s.available ++ [conn] }
  else s

/-- `ConnectionPool.close_all` (`pool.py` lines 118-131): drain both
lists. -/
def ConnectionPool.close_all (s : PoolState) : PoolState :=
  { s with available := [], inUse := [] }

/-- Pool states reachable from construction through any sequence of
`get_connection` / `return_connection` / `close_all` calls. -/
inductive PoolReachable : PoolState → Prop where
  | init (m : Nat) (s : PoolState) (h : ConnectionPool.init m = .ok s) : PoolReachable s
  | step_get (s : PoolState) (h : PoolReachable s) :
      PoolReachable (ConnectionPool.get_connection s).2
  | step_return (s : PoolState) (conn : Nat) (h : PoolReachable s) :
      PoolReachable (ConnectionPool.return_connection s conn)
  | step_close (s : PoolState) (h : PoolReachable s) :
      PoolReachable (ConnectionPool.close_all s)

/-! ## Specification-side definitions

These express what the spec claims in terms separate from the embedded
code: the predicate-relative call traces the index manager receives, the
index-consistency invariant, and an operation language for reachable
database states. -/

/-- Whether the schema registered for collection `c` exists and is violated
by `d` — the spec's "a schema was declared for the collection and the
document violates it". -/
def declaredViolates (schemas : List (String × SchemaDef)) (c : String) (d : Doc) : Bool :=
  match alookup schemas c with
  | some sch => violatesSchema sch d
  | none => false

/-- The `(position, document)` pairs `remove` hands to
`IndexManager.remove_document`, scanning left to right: the position is the
document's *current* position at removal time (its original position minus
the number of earlier removals), and positions of later documents are
never re-keyed. -/
def removeCalls (p : Doc → Bool) : List Doc → Nat → List (Nat × Doc)
  | [], _ => []
  | d :: ds, i =>
      if p d then (i, d) :: removeCalls p ds i else removeCalls p ds (i + 1)

/-- Replay a list of `remove_document` calls against an index manager. -/
def applyRemoveCalls (mgr : IndexManager) (calls : List (Nat × Doc)) : IndexManager :=
  calls.foldl (fun m pd => IndexManager.remove_document m pd.1 pd.2) mgr

/-- The `(position, old, new)` triples `update` hands to
`IndexManager.update_document`: one per matched document, at its (stable)
position, with the shallow-merged document as the new value. -/
def updateCalls (p : Doc → Bool) (fields : Doc) : List Doc → Nat → List (Nat × Doc × Doc)
  | [], _ => []
  | d :: ds, i =>
      if p d then (i, d, dmerge d fields) :: updateCalls p fields ds (i + 1)
      else updateCalls p fields ds (i + 1)

/-- Replay a list of `update_document` calls against an index manager. -/
def applyUpdateCalls (mgr : IndexManager) (calls : List (Nat × Doc × Doc)) : IndexManager :=
  calls.foldl (fun m c => IndexManager.update_document m c.1 c.2.1 c.2.2) mgr

/-- Position `pos` sits in the bucket of key `k`. -/
def bucketMem (bs : List (IdxKey × List Nat)) (k : IdxKey) (pos : Nat) : Prop :=
  ∃ b, blookup bs k = some b ∧ pos ∈ b

/-- Structural well-formedness of an index: bucket keys are unique. -/
def IdxWF (idx : Index) : Prop :=
  (idx.buckets.map Prod.fst).Nodup

/-- The index-consistency invariant for one index over one document list:
a position sits in the bucket of key `k` exactly when it is a live
position whose document's indexed-field tuple is `k`. -/
def IdxInv (idx : Index) (docs : List Doc) : Prop :=
  IdxWF idx ∧
  ∀ k pos, bucketMem idx.buckets k pos ↔
    ∃ d, docs.get? pos = some d ∧ idx.getKey d = some k

/-- The invariant over every index of the manager. -/
def MgrInv (mgr : IndexManager) (docs : List Doc) : Prop :=
  ∀ e ∈ mgr, IdxInv e.2 docs

/-- One database operation of the kind quantified over by the
index-consistency claim, restricted to the default collection. -/
inductive DBOp where
  | opInsert (d : Doc)
  | opUpdate (fields : Doc) (p : Doc → Bool)
  | opCreateIndex (fields : List String)

/-- Apply one operation (the state component of the corresponding
`AtomicDB` method). -/
def applyDBOp (s : DBState) : DBOp → DBState
  | .opInsert d => (AtomicDB.insert s d "default").2
  | .opUpdate fields p => (AtomicDB.update s fields (.callable p) "default").2
  | .opCreateIndex fields => AtomicDB.create_index s fields

/-- The freshly constructed database: one empty default collection, no
indexes, the empty default schema (`database.py` lines 31-33 with empty
storage). -/
def initDB : DBState :=
  ⟨[("default", [])], [], [("default", [])], 0, 0⟩

/-- Run a finite sequence of operations from the fresh state. -/
def runOps (ops : List DBOp) : DBState :=
  ops.foldl applyDBOp initDB

/-! ## Concrete example states for witnesses and counterexamples -/

/-- `{"name": "John", "age": 30}`. -/
def docJohn : Doc := [("name", .atom (.vstr "John")), ("age", .atom (.vint 30))]

/-- `{"name": "Jane", "age": 25}`. -/
def docJane : Doc := [("name", .atom (.vstr "Jane")), ("age", .atom (.vint 25))]

/-- A database holding John in the default collection. -/
def dbJohn : DBState := ⟨[("default", [docJohn])], [], [("default", [])], 0, 0⟩

/-- A database holding John and Jane in the default collection. -/
def dbJohnJane : DBState := ⟨[("default", [docJohn, docJane])], [], [("default", [])], 0, 0⟩

/-- A schema requiring a string `name` and allowing a numeric `age`. -/
def schemaPerson : SchemaDef :=
  [("name", ⟨true, some "string"⟩), ("age", ⟨false, some "number"⟩)]

/-- A database with a `people` collection carrying `schemaPerson`. -/
def dbPeople : DBState :=
  ⟨[("default", []), ("people", [])], [], [("default", []), ("people", schemaPerson)], 0, 0⟩

/-- The state after `create_index(["a"])`, `insert({"a": 1})`,
`insert({"a": 2})` on a fresh database. -/
def c3Indexed : DBState :=
  runOps [.opCreateIndex ["a"],
          .opInsert [("a", .atom (.vint 1))],
          .opInsert [("a", .atom (.vint 2))]]

/-- `c3Indexed` after `remove(a == 1)`. -/
def c3Removed : DBState :=
  (AtomicDB.remove c3Indexed
    (.callable fun d => decide (dgetD d "a" = .atom (.vint 1))) "default").2

/-! ## Lemmas about the value ordering -/

theorem atomLt_irrefl (a : PyAtom) : atomLt a a ≠ .ok true := by
  cases a <;> simp [atomLt]

theorem listLt_irrefl (l : List PyAtom) : listLt l l ≠ .ok true := by
  induction l with
  | nil => simp [listLt]
  | cons a as ih => simpa [listLt] using ih

theorem pyLt_irrefl (v : PyVal) : pyLt v v ≠ .ok true := by
  cases v with
  | atom a => exact atomLt_irrefl a
  | vlist l => exact listLt_irrefl l
  | vobj m => simp [pyLt]

theorem atomLt_error_typeError {a b : PyAtom} {e : PyErr}
    (h : atomLt a b = .error e) : e = .typeError := by
  cases a <;> cases b <;> simp [atomLt] at h <;> simp [h]

theorem listLt_error_typeError {e : PyErr} :
    ∀ {l₁ l₂ : List PyAtom}, listLt l₁ l₂ = .error e → e = .typeError := by
  intro l₁
  induction l₁ with
  | nil => intro l₂ h; cases l₂ <;> simp [listLt] at h
  | cons a as ih =>
      intro l₂ h
      cases l₂ with
      | nil => simp [listLt] at h
      | cons b bs =>
          by_cases hab : a = b
          · exact ih (by simpa [listLt, hab] using h)
          · exact atomLt_error_typeError (by simpa [listLt, hab] using h)

theorem pyLt_error_typeError {v w : PyVal} {e : PyErr}
    (h : pyLt v w = .error e) : e = .typeError := by
  cases v <;> cases w <;> simp [pyLt] at h
  case atom.atom => exact atomLt_error_typeError h
  case vlist.vlist => exact listLt_error_typeError h
  all_goals simp [h]

theorem pyContains_error_typeError {v : PyVal} {c : Option PyVal} {e : PyErr}
    (h : pyContains v c = .error e) : e = .typeError := by
  unfold pyContains at h
  split at h <;> (try split at h) <;> simp_all

/-- Every error `Query.matchE` can produce is a `TypeError` (the only
raising primitives are Python comparisons and `in`). -/
theorem Query.matchE_error_typeError :
    ∀ (q : Query) (d : Doc) (e : PyErr), q.matchE d = .error e → e = .typeError := by
  intro q
  induction q with
  | qgt f v => intro d e h; exact pyLt_error_typeError h
  | qlt f v => intro d e h; exact pyLt_error_typeError h
  | qge f v =>
      intro d e h
      rcases hlt : pyLt (dgetD d f) v with e' | b <;> simp only [matchE, hlt] at h
      · injection h with h; exact h ▸ pyLt_error_typeError hlt
      · cases h
  | qle f v =>
      intro d e h
      rcases hlt : pyLt v (dgetD d f) with e' | b <;> simp only [matchE, hlt] at h
      · injection h with h; exact h ▸ pyLt_error_typeError hlt
      · cases h
  | qcontains f v => intro d e h; exact pyContains_error_typeError h
  | qand a b iha ihb =>
      intro d e h
      rcases ha : a.matchE d with e' | ba <;> simp only [matchE, ha] at h
      · injection h with h; exact h ▸ iha d e' ha
      · rcases ba <;> simp only [if_true, if_false, Bool.false_eq_true, ite_false, ite_true] at h
        · cases h
        · exact ihb d e h
  | qor a b iha ihb =>
      intro d e h
      rcases ha : a.matchE d with e' | ba <;> simp only [matchE, ha] at h
      · injection h with h; exact h ▸ iha d e' ha
      · rcases ba <;> simp only [if_true, if_false, Bool.false_eq_true, ite_false, ite_true] at h
        · exact ihb d e h
        · cases h
  | qnot a iha =>
      intro d e h
      rcases ha : a.matchE d with e' | ba <;> simp only [matchE, ha] at h
      · injection h with h; exact h ▸ iha d e' ha
      · cases h
  | _ => intro d e h; simp [matchE] at h

theorem filterE_error_typeError (q : Query) :
    ∀ (docs : List Doc) (e : PyErr), filterE q.matchE docs = .error e → e = .typeError := by
  intro docs
  induction docs with
  | nil => intro e h; simp [filterE] at h
  | cons d ds ih =>
      intro e h
      rcases hm : q.matchE d with e' | b
      · simp only [filterE, hm] at h
        injection h with h
        exact h ▸ Query.matchE_error_typeError q d e' hm
      · rcases b <;> simp only [filterE, hm] at h
        · exact ih e h
        · rcases hf : filterE q.matchE ds with e' | r <;> rw [hf] at h
          · injection h with h; exact h ▸ ih e' hf
          · cases h

/-! ## Association-list lemmas -/

theorem alookup_aset_self {β : Type} (l : List (String × β)) (k : String) (v : β) :
    alookup (aset l k v) k = some v := by
  induction l with
  | nil => simp [aset, alookup]
  | cons e rest ih =>
      obtain ⟨k', v'⟩ := e
      by_cases h : k' = k <;> simp [aset, alookup, h, ih]

theorem alookup_aset_ne {β : Type} (l : List (String × β)) (k k' : String) (v : β)
    (h : k' ≠ k) : alookup (aset l k v) k' = alookup l k' := by
  induction l with
  | nil => simp [aset, alookup, Ne.symm h]
  | cons e rest ih =>
      obtain ⟨k₀, v₀⟩ := e
      by_cases h0 : k₀ = k
      · subst h0
        simp [aset, alookup, Ne.symm h]
      · simp only [aset, if_neg h0, alookup]
        by_cases h1 : k₀ = k' <;> simp [h1, ih]

theorem alookup_append_right {β : Type} (l l2 : List (String × β)) (k : String)
    (h : alookup l k = none) : alookup (l ++ l2) k = alookup l2 k := by
  induction l with
  | nil => simp
  | cons e rest ih =>
      obtain ⟨k', v⟩ := e
      by_cases h0 : k' = k
      · simp [alookup, h0] at h
      · simp only [alookup, h0, if_false, List.cons_append] at h ⊢
        exact ih h

theorem akey_false_alookup_none {β : Type} (l : List (String × β)) (k : String)
    (h : akey l k = false) : alookup l k = none := by
  unfold akey at h
  rcases hl : alookup l k with _ | v
  · rfl
  · rw [hl] at h; simp at h

/-! ## Error propagation through `getDocs` / `searchDocs` -/

theorem getDocs_error_typeError {s : DBState} {q : QueryArg} {c : String} {docs : List Doc}
    (hc : alookup s.collections c = some docs) {e : PyErr}
    (h : getDocs s q c = .error e) : e = .typeError := by
  unfold getDocs at h
  rw [hc] at h
  cases q with
  | callable f => simp at h
  | builtQ qq =>
      simp only [Query.get_equality_conditions, List.isEmpty_nil, if_true] at h
      exact filterE_error_typeError qq docs e h

theorem searchDocs_error_typeError {s : DBState} {q : QueryArg} {c : String} {docs : List Doc}
    (hc : alookup s.collections c = some docs) {e : PyErr}
    (h : searchDocs s q c = .error e) : e = .typeError := by
  unfold searchDocs at h
  rw [hc] at h
  cases q with
  | callable f => simp at h
  | builtQ qq =>
      simp only [Query.get_equality_conditions, List.isEmpty_nil, if_true] at h
      exact filterE_error_typeError qq docs e h

/-! ## Claim C10 -/

/-- C10: `AtomicDB.clear` leaves the index manager's state completely
unchanged (no index maintenance call is made), while the collection list is
emptied (when the collection exists) and the storage backend's `clear` is
invoked. -/
theorem clear_leaves_indexes (s : DBState) (c : String) :
    (AtomicDB.clear s c).indexes = s.indexes ∧
    (AtomicDB.clear s c).storageClears = s.storageClears + 1 ∧
    (akey s.collections c = true → alookup (AtomicDB.clear s c).collections c = some []) := by
  unfold AtomicDB.clear
  by_cases h : akey s.collections c <;> simp [h]
  exact alookup_aset_self s.collections c []

/-- Witness: evaluating `clear` on a concrete one-document database. -/
theorem clear_leaves_indexes_witness :
    (AtomicDB.clear dbJohn "default").indexes = dbJohn.indexes ∧
    alookup (AtomicDB.clear dbJohn "default").collections "default" = some [] :=
  ⟨(clear_leaves_indexes dbJohn "default").1,
   (clear_leaves_indexes dbJohn "default").2.2 rfl⟩

/-! ## Claim C2 -/

/-- C2: on any database state whose queried collection exists, every call
to `AtomicDB.get`, `AtomicDB.search` and `AtomicDB.all` raises `TypeError`
before returning a result: each constructs `QueryResult` with a second
positional argument (`QueryResult(docs, self)`), while
`QueryResult.__init__` accepts only the document list. -/
theorem get_search_all_raise_typeError (s : DBState) (q : QueryArg) (c : String)
    (docs : List Doc) (hc : alookup s.collections c = some docs) :
    AtomicDB.get s q c = .error .typeError ∧
    AtomicDB.search s q c = .error .typeError ∧
    AtomicDB.all s c = .error .typeError := by
  refine ⟨?_, ?_, ?_⟩
  · unfold AtomicDB.get
    rcases hg : getDocs s q c with e | ds
    · have he := getDocs_error_typeError hc hg
      subst he
      rfl
    · simp [QueryResult.construct]
  · unfold AtomicDB.search
    rcases hg : searchDocs s q c with e | ds
    · have he := searchDocs_error_typeError hc hg
      subst he
      rfl
    · simp [QueryResult.construct]
  · unfold AtomicDB.all
    rw [hc]
    simp [QueryResult.construct]

/-- Witness: the three calls on a concrete one-document database. -/
theorem get_search_all_raise_typeError_witness :
    AtomicDB.get dbJohn (.builtQ .qtrue) "default" = .error .typeError ∧
    AtomicDB.search dbJohn (.builtQ .qtrue) "default" = .error .typeError ∧
    AtomicDB.all dbJohn "default" = .error .typeError :=
  get_search_all_raise_typeError dbJohn (.builtQ .qtrue) "default" [docJohn] rfl

/-! ## Claim C4 -/

/-- C4 (code bug): the spec requires `search` to return an immutable
snapshot of document copies, but evaluating the code on a concrete
two-document store shows the call raises `TypeError` (the
`QueryResult(docs, self)` arity bug) and returns no `ResultSet` at all; the
repository's own tests (`tests/test_database.py`) expect these calls to
succeed.  (Additionally, the always-taken full-scan branch collects the
live document references without `.copy()`, so even with the constructor
fixed the result would alias the store.) -/
theorem search_returns_no_snapshot :
    AtomicDB.search dbJohnJane (.callable fun _ => true) "default" = .error .typeError := by
  rfl

/-! ## Claim C1 -/

/-- C1 counterexample: for the predicate `(name == "John") & (age == 30)` —
an AND of two pure equality leaves — the claim asserts the extracted
condition mapping is the non-empty union of the leaves' single-field
mappings; the code extracts the empty mapping. -/
theorem and_of_equalities_extracts_empty :
    Query.get_equality_conditions
      (Query.qand (Query.qeq "name" (.atom (.vstr "John")))
                  (Query.qeq "age" (.atom (.vint 30)))) = [] ∧
    ([("name", PyVal.atom (.vstr "John")), ("age", PyVal.atom (.vint 30))] :
      List (String × PyVal)) ≠ [] := by
  exact ⟨rfl, by simp⟩

/-- C1 amended: equality-condition extraction returns the empty mapping for
every predicate (the source is a placeholder), so no index is ever
consulted and every `search` — AND-of-equalities, OR, NOT, range, regex and
containment alike — computes exactly the full linear scan evaluating the
original predicate. -/
theorem extraction_empty_and_search_full_scans (q : Query) (s : DBState) (c : String)
    (docs : List Doc) (hc : alookup s.collections c = some docs) :
    Query.get_equality_conditions q = [] ∧
    searchDocs s (.builtQ q) c = filterE q.matchE docs := by
  refine ⟨rfl, ?_⟩
  unfold searchDocs
  rw [hc]
  simp [Query.get_equality_conditions]

/-- Witness: the full-scan equality on a concrete database and equality
predicate. -/
theorem extraction_empty_and_search_full_scans_witness :
    Query.get_equality_conditions (Query.qeq "name" (.atom (.vstr "John"))) = [] ∧
    searchDocs dbJohn (.builtQ (Query.qeq "name" (.atom (.vstr "John")))) "default" =
      filterE (Query.qeq "name" (.atom (.vstr "John"))).matchE [docJohn] :=
  extraction_empty_and_search_full_scans
    (Query.qeq "name" (.atom (.vstr "John"))) dbJohn "default" [docJohn] rfl

/-! ## Claim C5 -/

theorem validateField_eq (d : Doc) (f : String) (fs : FieldSchema) :
    validateField d f fs =
      if fieldViolation d f fs then .error .validationError else .ok () := by
  unfold validateField fieldViolation
  rcases alookup d f with _ | v
  · rfl
  · rcases fs.ftype with _ | ft <;> rfl

theorem validateAgainstSchema_eq (sch : SchemaDef) (d : Doc) :
    validateAgainstSchema sch d =
      if violatesSchema sch d then .error .validationError else .ok () := by
  induction sch with
  | nil => simp [validateAgainstSchema, violatesSchema]
  | cons e rest ih =>
      obtain ⟨f, fs⟩ := e
      simp only [validateAgainstSchema, validateField_eq, violatesSchema, List.any_cons]
      by_cases hfv : fieldViolation d f fs = true
      · simp [hfv]
      · rw [Bool.not_eq_true] at hfv
        simp only [hfv, Bool.false_or, Bool.false_eq_true, if_false]
        simpa [violatesSchema] using ih

theorem validate_document_eq (schemas : List (String × SchemaDef)) (c : String) (d : Doc) :
    Schema.validate_document schemas c d =
      if declaredViolates schemas c d then .error .validationError else .ok () := by
  unfold Schema.validate_document declaredViolates
  rcases hs : alookup schemas c with _ | sch
  · simp
  · rcases hemp : sch.isEmpty
    · simp only [hemp, if_false, Bool.false_eq_true]
      exact validateAgainstSchema_eq sch d
    · have : sch = [] := List.isEmpty_iff.mp hemp
      subst this
      simp [violatesSchema]

/-- C5: `insert` raises `ValidationError` exactly when a schema was
declared for the collection and the document violates it (a required field
missing, or a present field of a wrong primitive type); when it raises, the
state — in particular the collection — is unchanged (validation precedes
every mutation); on success the document is appended to the collection and
its position (the previous length) is returned. -/
theorem insert_spec (s : DBState) (d : Doc) (c : String) :
    ((AtomicDB.insert s d c).1 = .error .validationError ↔
      (∃ sch, alookup s.schemas c = some sch ∧ violatesSchema sch d = true)) ∧
    ((AtomicDB.insert s d c).1 = .error .validationError → (AtomicDB.insert s d c).2 = s) ∧
    (∀ n, (AtomicDB.insert s d c).1 = .ok n →
      n = ((alookup s.collections c).getD []).length ∧
      alookup (AtomicDB.insert s d c).2.collections c =
        some (((alookup s.collections c).getD []) ++ [d])) := by
  by_cases hdv0 : declaredViolates s.schemas c d = true
  case neg =>
    -- no declared violation: validation passes, the document is appended
    rw [Bool.not_eq_true] at hdv0
    have hdv := hdv0
    have hv : Schema.validate_document s.schemas c d = .ok () := by
      rw [validate_document_eq, hdv]; simp
    unfold AtomicDB.insert
    rw [hv]
    dsimp only
    refine ⟨?_, ?_, ?_⟩
    · constructor
      · intro h; simp at h
      · rintro ⟨sch, hsch, hviol⟩
        unfold declaredViolates at hdv
        rw [hsch] at hdv
        simp [hviol] at hdv
    · intro h; simp at h
    · intro n hn
      simp only [Except.ok.injEq] at hn
      by_cases hk : akey s.collections c = true
      · constructor
        · rw [← hn]; simp [hk]
        · simp [hk, alookup_aset_self]
      · rw [Bool.not_eq_true] at hk
        have hnone := akey_false_alookup_none s.collections c hk
        constructor
        · rw [← hn]
          simp [hk, alookup_append_right s.collections [(c, [])] c hnone, alookup, hnone]
        · simp [hk, alookup_append_right s.collections [(c, [])] c hnone, alookup, hnone,
                alookup_aset_self]
  case pos =>
    -- declared violation: ValidationError, state untouched
    have hdv := hdv0
    have hv : Schema.validate_document s.schemas c d = .error .validationError := by
      rw [validate_document_eq, hdv]; simp
    unfold AtomicDB.insert
    rw [hv]
    dsimp only
    refine ⟨?_, ?_, ?_⟩
    · constructor
      · intro _
        unfold declaredViolates at hdv
        rcases hs2 : alookup s.schemas c with _ | sch
        · rw [hs2] at hdv; cases hdv
        · rw [hs2] at hdv
          exact ⟨sch, rfl, hdv⟩
      · intro _; rfl
    · intro _; rfl
    · intro n hn; cases hn

/-- Witness: a missing required `name` is rejected with the state
unchanged, and a valid document is appended at position 0. -/
theorem insert_spec_witness :
    (AtomicDB.insert dbPeople [("age", .atom (.vint 3))] "people").1 =
      .error .validationError ∧
    (AtomicDB.insert dbPeople [("age", .atom (.vint 3))] "people").2 = dbPeople ∧
    (AtomicDB.insert dbPeople [("name", .atom (.vstr "Jo"))] "people").1 = .ok 0 ∧
    alookup (AtomicDB.insert dbPeople [("name", .atom (.vstr "Jo"))] "people").2.collections
      "people" = some [[("name", .atom (.vstr "Jo"))]] := by
  have h1 := (insert_spec dbPeople [("age", .atom (.vint 3))] "people").1.mpr
    ⟨schemaPerson, rfl, rfl⟩
  have h2 := (insert_spec dbPeople [("age", .atom (.vint 3))] "people").2.1 h1
  have h3 := (insert_spec dbPeople [("name", .atom (.vstr "Jo"))] "people").2.2 0
  refine ⟨h1, h2, ?_, ?_⟩
  · rfl
  · exact (h3 rfl).2

/-! ## Claim C8 -/

theorem get_connection_preserves_sum (s0 : PoolState) :
    (ConnectionPool.get_connection s0).2.available.length +
      (ConnectionPool.get_connection s0).2.inUse.length =
      s0.available.length + s0.inUse.length ∧
    (ConnectionPool.get_connection s0).2.maxConnections = s0.maxConnections := by
  unfold ConnectionPool.get_connection
  rcases hav : s0.available with _ | ⟨id, rest⟩
  · dsimp only
    constructor
    · split <;> (dsimp only; rw [hav])
    · split <;> rfl
  · dsimp only
    constructor
    · simp only [List.length_append, List.length_cons, List.length_nil]
      omega
    · rfl

theorem return_connection_preserves_sum (s0 : PoolState) (conn : Nat) :
    (ConnectionPool.return_connection s0 conn).available.length +
      (ConnectionPool.return_connection s0 conn).inUse.length =
      s0.available.length + s0.inUse.length ∧
    (ConnectionPool.return_connection s0 conn).maxConnections = s0.maxConnections := by
  unfold ConnectionPool.return_connection
  by_cases hmem : conn ∈ s0.inUse
  · simp only [hmem, if_true]
    constructor
    · simp only [List.length_append, List.length_cons, List.length_nil]
      have h1 := List.length_erase_of_mem hmem
      have h2 := List.length_pos_of_mem hmem
      omega
    · trivial
  · simp [hmem]

/-- C8: in every reachable pool state the number of available handles plus
the number of in-use handles never exceeds `max_connections`; and a
`get_connection` issued when none is available and the pool is at capacity
fails with the exhaustion condition (`queue.Empty` after the timeout)
rather than returning a handle. -/
theorem pool_invariant (s : PoolState) (h : PoolReachable s) :
    s.available.length + s.inUse.length ≤ s.maxConnections ∧
    (s.available = [] → s.maxConnections ≤ s.inUse.length →
      (ConnectionPool.get_connection s).1 = .exhausted ∧
      ∀ id, (ConnectionPool.get_connection s).1 ≠ .got id) := by
  have hmain : s.available.length + s.inUse.length ≤ s.maxConnections := by
    induction h with
    | init m s0 h0 =>
        unfold ConnectionPool.init ConnectionPool.createConnection at h0
        by_cases hm : m ≤ 0
        · simp [hm] at h0
        · simp only [List.length_nil, Nat.add_zero, if_neg (by omega : ¬ m ≤ 0 + 0)] at h0
          injection h0 with h0
          subst h0
          simp
          omega
    | step_get s0 h0 ih =>
        obtain ⟨h1, h2⟩ := get_connection_preserves_sum s0
        omega
    | step_return s0 conn h0 ih =>
        obtain ⟨h1, h2⟩ := return_connection_preserves_sum s0 conn
        omega
    | step_close s0 h0 ih =>
        unfold ConnectionPool.close_all
        simp
  refine ⟨hmain, ?_⟩
  intro hav hcap
  unfold ConnectionPool.get_connection
  rw [hav]
  have hnot : ¬ (s.inUse.length + ([] : List Nat).length < s.maxConnections) := by
    simp; omega
  rw [if_neg hnot]
  exact ⟨rfl, fun id => by simp⟩

/-- Witness: with `max_connections = 1`, after the initial handle is
acquired the pool is at capacity and the next `get_connection` fails
exhausted. -/
theorem pool_invariant_witness :
    (⟨[], [0], 1, 1⟩ : PoolState).available.length + [0].length ≤ 1 ∧
    (ConnectionPool.get_connection ⟨[], [0], 1, 1⟩).1 = .exhausted := by
  have hr : PoolReachable (⟨[], [0], 1, 1⟩ : PoolState) := by
    have h1 : PoolReachable (⟨[0], [], 1, 1⟩ : PoolState) :=
      PoolReachable.init 1 _ rfl
    have h2 := PoolReachable.step_get _ h1
    exact h2
  have h := pool_invariant _ hr
  exact ⟨h.1, (h.2 rfl (by simp)).1⟩

/-! ## Claim C9 -/

theorem insertE_filter (key : Doc → PyVal) (cmp : Doc → Doc → Except PyErr Bool)
    (hk : ∀ x y, cmp x y = .ok false → key y ≠ key x) :
    ∀ (x : Doc) (l out : List Doc), insertE cmp x l = .ok out → ∀ k : PyVal,
      out.filter (fun d => decide (key d = k)) =
        if key x = k then x :: l.filter (fun d => decide (key d = k))
        else l.filter (fun d => decide (key d = k)) := by
  intro x l
  induction l with
  | nil =>
      intro out h k
      simp only [insertE] at h
      injection h with h
      subst h
      by_cases hx : key x = k <;> simp [List.filter, hx]
  | cons y ys ih =>
      intro out h k
      rcases hcmp : cmp x y with e | b
      · simp [insertE, hcmp] at h
      · rcases b
        · -- walk past `y`; `key y < key x`, in particular `key y ≠ key x`
          have hne := hk x y hcmp
          rcases hins : insertE cmp x ys with e | r <;>
            simp only [insertE, hcmp, hins] at h
          · cases h
          · injection h with h
            subst h
            have hr := ih r hins k
            by_cases hx : key x = k
            · have hy : ¬ (key y = k) := fun hh => hne (hx ▸ hh)
              simp only [hx, if_true] at hr
              simp [List.filter, hy, hr, hx]
            · simp only [hx, if_false] at hr
              by_cases hy : key y = k <;> simp [List.filter, hy, hr, hx]
        · -- `x` placed in front: `out = x :: y :: ys`
          simp only [insertE, hcmp] at h
          injection h with h
          subst h
          by_cases hx : key x = k <;> simp [List.filter, hx]

theorem sortE_filter (key : Doc → PyVal) (cmp : Doc → Doc → Except PyErr Bool)
    (hk : ∀ x y, cmp x y = .ok false → key y ≠ key x) :
    ∀ (l out : List Doc), sortE cmp l = .ok out → ∀ k : PyVal,
      out.filter (fun d => decide (key d = k)) = l.filter (fun d => decide (key d = k)) := by
  intro l
  induction l with
  | nil =>
      intro out h k
      simp only [sortE] at h
      injection h with h
      subst h
      rfl
  | cons x xs ih =>
      intro out h k
      rcases hs : sortE cmp xs with e | r <;> simp only [sortE, hs] at h
      · cases h
      · have hr := ih r hs k
        have hi := insertE_filter key cmp hk x r out h k
        rw [hi, hr]
        by_cases hx : key x = k <;> simp [List.filter, hx]

/-- C9 counterexample: sorting `[{"b": 1}, {"a": 1}]` by field `"a"` — the
first document is missing the sort field, so its key is `None`, and
Python's comparison of `None` with `1` raises `TypeError` instead of giving
the missing-field document a defined placement. -/
theorem sort_by_missing_field_raises :
    QueryResult.sort_by ⟨[[("b", .atom (.vint 1))], [("a", .atom (.vint 1))]]⟩ "a" false =
      .error .typeError := by
  rfl

/-- C9 amended: when `sort_by` succeeds (all keys mutually comparable) it
is a stable sort keyed by `doc.get(field)`: for every key value, the
documents carrying that key appear in the output in exactly their original
relative order (in particular, equal-keyed documents are never reordered,
with or without `reverse`).  A document missing the field gets key `None`
and any comparison against it raises `TypeError` instead of yielding a
defined placement. -/
theorem sort_by_stable (r : QueryResult) (field : String) (rev : Bool)
    (out : QueryResult) (h : QueryResult.sort_by r field rev = .ok out) (k : PyVal) :
    out.documents.filter (fun d => decide (dgetD d field = k)) =
      r.documents.filter (fun d => decide (dgetD d field = k)) := by
  unfold QueryResult.sort_by at h
  dsimp only at h
  rcases hs : sortE
      (fun x y => if rev then pyNotLt (dgetD x field) (dgetD y field)
                  else pyNotLt (dgetD y field) (dgetD x field)) r.documents with e | docs <;>
    rw [hs] at h
  · cases h
  · injection h with h
    subst h
    refine sortE_filter (fun d => dgetD d field) _ ?_ r.documents docs hs k
    intro x y hcmp
    rcases rev
    · simp only [if_false, Bool.false_eq_true] at hcmp
      unfold pyNotLt at hcmp
      rcases hlt : pyLt (dgetD y field) (dgetD x field) with e' | b <;> rw [hlt] at hcmp
      · cases hcmp
      · injection hcmp with hcmp
        intro heq
        have heq2 : dgetD y field = dgetD x field := heq
        rw [heq2] at hlt
        rcases b
        · simp at hcmp
        · exact pyLt_irrefl _ hlt
    · simp only [if_true] at hcmp
      unfold pyNotLt at hcmp
      rcases hlt : pyLt (dgetD x field) (dgetD y field) with e' | b <;> rw [hlt] at hcmp
      · cases hcmp
      · injection hcmp with hcmp
        intro heq
        have heq2 : dgetD y field = dgetD x field := heq
        rw [heq2] at hlt
        rcases b
        · simp at hcmp
        · exact pyLt_irrefl _ hlt

/-- Witness: an ascending sort on duplicate keys succeeds and preserves,
for each key, the original relative order of its documents. -/
theorem sort_by_stable_witness :
    QueryResult.sort_by ⟨[[("k", .atom (.vint 1)), ("tag", .atom (.vstr "x"))],
                          [("k", .atom (.vint 0)), ("tag", .atom (.vstr "y"))],
                          [("k", .atom (.vint 1)), ("tag", .atom (.vstr "z"))]]⟩ "k" false =
      .ok ⟨[[("k", .atom (.vint 0)), ("tag", .atom (.vstr "y"))],
            [("k", .atom (.vint 1)), ("tag", .atom (.vstr "x"))],
            [("k", .atom (.vint 1)), ("tag", .atom (.vstr "z"))]]⟩ ∧
    ([[("k", .atom (.vint 0)), ("tag", .atom (.vstr "y"))],
      [("k", .atom (.vint 1)), ("tag", .atom (.vstr "x"))],
      [("k", .atom (.vint 1)), ("tag", .atom (.vstr "z"))]] : List Doc).filter
        (fun d => decide (dgetD d "k" = .atom (.vint 1))) =
      ([[("k", .atom (.vint 1)), ("tag", .atom (.vstr "x"))],
        [("k", .atom (.vint 0)), ("tag", .atom (.vstr "y"))],
        [("k", .atom (.vint 1)), ("tag", .atom (.vstr "z"))]] : List Doc).filter
        (fun d => decide (dgetD d "k" = .atom (.vint 1))) := by
  refine ⟨by rfl, ?_⟩
  exact sort_by_stable
    ⟨[[("k", .atom (.vint 1)), ("tag", .atom (.vstr "x"))],
      [("k", .atom (.vint 0)), ("tag", .atom (.vstr "y"))],
      [("k", .atom (.vint 1)), ("tag", .atom (.vstr "z"))]]⟩ "k" false
    ⟨[[("k", .atom (.vint 0)), ("tag", .atom (.vstr "y"))],
      [("k", .atom (.vint 1)), ("tag", .atom (.vstr "x"))],
      [("k", .atom (.vint 1)), ("tag", .atom (.vstr "z"))]]⟩ (by rfl) (.atom (.vint 1))

/-! ## Claim C6 -/

theorem removeScan_spec (p : Doc → Bool) (matcher : Doc → Except PyErr Bool)
    (hm : ∀ d, matcher d = .ok (p d)) :
    ∀ (docs : List Doc) (i : Nat) (idx : IndexManager),
      removeScan matcher docs i idx =
        (.ok (docs.countP p), docs.filter (fun d => !p d),
         applyRemoveCalls idx (removeCalls p docs i)) := by
  intro docs
  induction docs with
  | nil =>
      intro i idx
      simp [removeScan, removeCalls, applyRemoveCalls]
  | cons d ds ih =>
      intro i idx
      simp only [removeScan, hm d]
      by_cases hp : p d = true
      · simp only [hp, if_true]
        rw [ih]
        simp [List.countP_cons, hp, removeCalls, applyRemoveCalls, List.filter_cons]
      · rw [Bool.not_eq_true] at hp
        simp only [hp, Bool.false_eq_true, if_false]
        rw [ih]
        simp [List.countP_cons, hp, removeCalls, applyRemoveCalls, List.filter_cons]

/-- The position handed to the index manager for the `j`-th original
document (when it matches) is `i` plus the number of earlier non-matching
documents — i.e. the document's current, shifted position at removal
time. -/
theorem removeCalls_positions (p : Doc → Bool) :
    ∀ (docs : List Doc) (i : Nat),
      removeCalls p docs i =
        (List.range docs.length).filterMap (fun j =>
          match docs.get? j with
          | some d =>
              if p d then some (i + (docs.take j).countP (fun x => !p x), d) else none
          | none => none) := by
  intro docs
  induction docs with
  | nil => intro i; simp [removeCalls]
  | cons d ds ih =>
      intro i
      rw [List.length_cons, List.range_succ_eq_map, List.filterMap_cons,
        List.filterMap_map]
      have htail : ∀ j : Nat,
          ((fun j =>
            match (d :: ds).get? j with
            | some d' =>
                if p d' then some (i + ((d :: ds).take j).countP (fun x => !p x), d') else none
            | none => none) ∘ Nat.succ) j =
          (fun j =>
            match ds.get? j with
            | some d' =>
                if p d' then
                  some ((if p d then i else i + 1) + (ds.take j).countP (fun x => !p x), d')
                else none
            | none => none) j := by
        intro j
        simp only [Function.comp_apply, List.get?_cons_succ, List.take_succ_cons,
          List.countP_cons]
        rcases ds.get? j with _ | d'
        · rfl
        · by_cases hpd : p d = true
          · simp [hpd]
          · rw [Bool.not_eq_true] at hpd
            by_cases hp' : p d' = true <;> simp [hpd, hp']
            omega
      rw [List.filterMap_congr (fun j _ => htail j)]
      unfold removeCalls
      by_cases hp : p d = true
      · simp [hp, ih i]
      · rw [Bool.not_eq_true] at hp
        simp [hp, ih (i + 1)]

/-- C6: `remove(predicate, collection)` scans left to right; the returned
count is the number of matching documents, the surviving collection is the
original with the matches deleted in order, and the index manager receives
exactly one `remove_document(current_position, doc)` call per match — the
position being the match's shifted position at removal time
(`removeCalls_positions`), with no re-keying of later documents' entries
(the final manager state is precisely the fold of those calls). -/
theorem remove_spec (s : DBState) (q : QueryArg) (c : String) (docs : List Doc)
    (p : Doc → Bool) (hc : alookup s.collections c = some docs)
    (hm : ∀ d, q.matcher d = .ok (p d)) :
    (AtomicDB.remove s q c).1 = .ok (docs.countP p) ∧
    alookup (AtomicDB.remove s q c).2.collections c =
      some (docs.filter (fun d => !p d)) ∧
    (AtomicDB.remove s q c).2.indexes =
      applyRemoveCalls s.indexes (removeCalls p docs 0) ∧
    (AtomicDB.remove s q c).2.saves =
      s.saves + (if 0 < docs.countP p then 1 else 0) := by
  unfold AtomicDB.remove
  rw [hc]
  dsimp only
  rw [removeScan_spec p q.matcher hm docs 0 s.indexes]
  dsimp only
  by_cases hcnt : 0 < docs.countP p
  · simp only [hcnt, if_true]
    exact ⟨by trivial, alookup_aset_self s.collections c _, by trivial, by simp [hcnt]⟩
  · simp only [hcnt, if_false]
    exact ⟨by trivial, alookup_aset_self s.collections c _, by trivial, by simp [hcnt]⟩

/-- Witness: removing John from the two-document store removes exactly one
document, leaves Jane, and issues the single index call at position 0. -/
theorem remove_spec_witness :
    (AtomicDB.remove dbJohnJane
        (.callable fun d => decide (dgetD d "name" = .atom (.vstr "John"))) "default").1 =
      .ok ([docJohn, docJane].countP
        (fun d => decide (dgetD d "name" = .atom (.vstr "John")))) ∧
    alookup (AtomicDB.remove dbJohnJane
        (.callable fun d => decide (dgetD d "name" = .atom (.vstr "John"))) "default").2.collections
      "default" =
      some ([docJohn, docJane].filter
        (fun d => !(decide (dgetD d "name" = .atom (.vstr "John"))))) := by
  have h := remove_spec dbJohnJane
    (.callable fun d => decide (dgetD d "name" = .atom (.vstr "John"))) "default"
    [docJohn, docJane] (fun d => decide (dgetD d "name" = .atom (.vstr "John")))
    rfl (fun d => rfl)
  exact ⟨h.1, h.2.1⟩

/-! ## Claim C7 -/

theorem updateScan_spec (p : Doc → Bool) (matcher : Doc → Except PyErr Bool)
    (hm : ∀ d, matcher d = .ok (p d)) (fields : Doc) :
    ∀ (docs : List Doc) (i : Nat) (idx : IndexManager),
      updateScan matcher fields docs i idx =
        (.ok (docs.countP p),
         docs.map (fun d => if p d then dmerge d fields else d),
         applyUpdateCalls idx (updateCalls p fields docs i)) := by
  intro docs
  induction docs with
  | nil =>
      intro i idx
      simp [updateScan, updateCalls, applyUpdateCalls]
  | cons d ds ih =>
      intro i idx
      simp only [updateScan, hm d]
      by_cases hp : p d = true
      · simp only [hp, if_true]
        rw [ih]
        simp [List.countP_cons, hp, updateCalls, applyUpdateCalls]
      · rw [Bool.not_eq_true] at hp
        simp only [hp, Bool.false_eq_true, if_false]
        rw [ih]
        simp [List.countP_cons, hp, updateCalls, applyUpdateCalls]

/-- `AtomicDB.update` always takes the full-scan route: the extracted
conditions are empty for every built query, so both argument forms reduce
to `updateFull` with the respective per-document test. -/
theorem update_eq_updateFull (s : DBState) (fields : Doc) (q : QueryArg) (c : String) :
    AtomicDB.update s fields q c = updateFull s fields q.matcher c := by
  cases q with
  | builtQ qq => rfl
  | callable f => rfl

/-- C7: for every document matching the predicate, `update` shallow-merges
the field updates into it (existing keys overwritten, new keys appended);
the returned count is the number of matched documents; the index manager
receives exactly one `update_document(position, old, new)` call per match;
and the persistence save happens exactly once when the count is positive
and not at all when it is zero. -/
theorem update_spec (s : DBState) (fields : Doc) (q : QueryArg) (c : String)
    (docs : List Doc) (p : Doc → Bool) (hc : alookup s.collections c = some docs)
    (hm : ∀ d, q.matcher d = .ok (p d)) :
    (AtomicDB.update s fields q c).1 = .ok (docs.countP p) ∧
    alookup (AtomicDB.update s fields q c).2.collections c =
      some (docs.map (fun d => if p d then dmerge d fields else d)) ∧
    (AtomicDB.update s fields q c).2.indexes =
      applyUpdateCalls s.indexes (updateCalls p fields docs 0) ∧
    (AtomicDB.update s fields q c).2.saves =
      s.saves + (if 0 < docs.countP p then 1 else 0) := by
  rw [update_eq_updateFull]
  unfold updateFull
  rw [hc]
  dsimp only
  rw [updateScan_spec p q.matcher hm fields docs 0 s.indexes]
  dsimp only
  by_cases hcnt : 0 < docs.countP p
  · simp only [hcnt, if_true]
    exact ⟨by trivial, alookup_aset_self s.collections c _, by trivial, by simp [hcnt]⟩
  · simp only [hcnt, if_false]
    exact ⟨by trivial, alookup_aset_self s.collections c _, by trivial, by simp [hcnt]⟩

/-- Witness: `update({"age": 31}, name == "John")` on the two-document
store matches one document, merges the new age into John only, and saves
once. -/
theorem update_spec_witness :
    (AtomicDB.update dbJohnJane [("age", .atom (.vint 31))]
        (.callable fun d => decide (dgetD d "name" = .atom (.vstr "John"))) "default").1 =
      .ok ([docJohn, docJane].countP
        (fun d => decide (dgetD d "name" = .atom (.vstr "John")))) ∧
    alookup (AtomicDB.update dbJohnJane [("age", .atom (.vint 31))]
        (.callable fun d => decide (dgetD d "name" = .atom (.vstr "John")))
        "default").2.collections "default" =
      some ([docJohn, docJane].map (fun d =>
        if decide (dgetD d "name" = .atom (.vstr "John"))
        then dmerge d [("age", .atom (.vint 31))] else d)) ∧
    (AtomicDB.update dbJohnJane [("age", .atom (.vint 31))]
        (.callable fun d => decide (dgetD d "name" = .atom (.vstr "John"))) "default").2.saves =
      dbJohnJane.saves + 1 := by
  have h := update_spec dbJohnJane [("age", .atom (.vint 31))]
    (.callable fun d => decide (dgetD d "name" = .atom (.vstr "John"))) "default"
    [docJohn, docJane] (fun d => decide (dgetD d "name" = .atom (.vstr "John")))
    rfl (fun d => rfl)
  refine ⟨h.1, h.2.1, ?_⟩
  rw [h.2.2.2]
  rfl

/-! ## Claim C3 -/

theorem bucketMem_nil (k : IdxKey) (pos : Nat) : ¬ bucketMem [] k pos := by
  unfold bucketMem
  simp [blookup]

theorem bucketMem_cons_eq {k' : IdxKey} {b : List Nat} {rest : List (IdxKey × List Nat)}
    {k : IdxKey} {pos : Nat} (h : k' = k) :
    bucketMem ((k', b) :: rest) k pos ↔ pos ∈ b := by
  unfold bucketMem
  simp [blookup, h]

theorem bucketMem_cons_ne {k' : IdxKey} {b : List Nat} {rest : List (IdxKey × List Nat)}
    {k : IdxKey} {pos : Nat} (h : k' ≠ k) :
    bucketMem ((k', b) :: rest) k pos ↔ bucketMem rest k pos := by
  unfold bucketMem
  simp [blookup, h]

theorem blookup_isSome_iff_mem_keys {α β : Type} [DecidableEq α]
    (bs : List (α × β)) (k : α) :
    (blookup bs k).isSome ↔ k ∈ bs.map Prod.fst := by
  induction bs with
  | nil => simp [blookup]
  | cons e rest ih =>
      obtain ⟨k', v⟩ := e
      by_cases h : k' = k
      · subst h; simp [blookup]
      · simp only [blookup, if_neg h, List.map_cons, List.mem_cons]
        rw [ih]
        constructor
        · exact Or.inr
        · rintro (h' | h')
          · exact absurd h'.symm h
          · exact h'

theorem blookup_eq_none_of_not_mem_keys {α β : Type} [DecidableEq α]
    {bs : List (α × β)} {k : α} (h : k ∉ bs.map Prod.fst) :
    blookup bs k = none := by
  rcases hl : blookup bs k with _ | v
  · rfl
  · exact absurd ((blookup_isSome_iff_mem_keys bs k).mp (by simp [hl])) h

theorem mem_bucketsAdd (bs : List (IdxKey × List Nat)) (k0 : IdxKey) (i : Nat)
    (k : IdxKey) (pos : Nat) :
    bucketMem (bucketsAdd bs k0 i) k pos ↔
      (bucketMem bs k pos ∨ (k = k0 ∧ pos = i)) := by
  induction bs with
  | nil =>
      unfold bucketsAdd
      by_cases hk : k0 = k
      · subst hk
        rw [bucketMem_cons_eq rfl]
        simp [bucketMem_nil]
      · rw [bucketMem_cons_ne hk]
        simp [bucketMem_nil]
        exact fun hkk => absurd hkk.symm hk
  | cons e rest ih =>
      obtain ⟨k', b⟩ := e
      unfold bucketsAdd
      by_cases h0 : k' = k0
      · subst h0
        rw [if_pos rfl]
        by_cases hk : k' = k
        · rw [bucketMem_cons_eq hk, bucketMem_cons_eq hk]
          subst hk
          by_cases hib : i ∈ b
          · simp [hib]
            exact fun hp => hp ▸ hib
          · simp [hib, List.mem_append]
        · rw [bucketMem_cons_ne hk, bucketMem_cons_ne hk]
          constructor
          · exact Or.inl
          · rintro (h | ⟨hkk, -⟩)
            · exact h
            · exact absurd hkk.symm hk
      · rw [if_neg h0]
        by_cases hk : k' = k
        · rw [bucketMem_cons_eq hk, bucketMem_cons_eq hk]
          constructor
          · exact Or.inl
          · rintro (h | ⟨hkk, -⟩)
            · exact h
            · subst hk; exact absurd hkk h0
        · rw [bucketMem_cons_ne hk, bucketMem_cons_ne hk]
          exact ih

theorem mem_bucketsDiscard (bs : List (IdxKey × List Nat)) (k0 : IdxKey) (i : Nat)
    (hnd : (bs.map Prod.fst).Nodup) (k : IdxKey) (pos : Nat) :
    bucketMem (bucketsDiscard bs k0 i) k pos ↔
      (bucketMem bs k pos ∧ ¬(k = k0 ∧ pos = i)) := by
  induction bs with
  | nil =>
      unfold bucketsDiscard
      simp [bucketMem_nil]
  | cons e rest ih =>
      obtain ⟨k', b⟩ := e
      simp only [List.map_cons, List.nodup_cons] at hnd
      obtain ⟨hknotin, hndrest⟩ := hnd
      unfold bucketsDiscard
      by_cases h0 : k' = k0
      · subst h0
        rw [if_pos rfl]
        by_cases hk : k' = k
        · subst hk
          by_cases hemp : (b.filter (fun x => x ≠ i)).isEmpty = true
          · rw [if_pos hemp]
            have hnone : blookup rest k' = none := blookup_eq_none_of_not_mem_keys hknotin
            have hnomem : ¬ bucketMem rest k' pos := by
              unfold bucketMem
              rw [hnone]
              rintro ⟨b', hb', -⟩
              cases hb'
            rw [bucketMem_cons_eq rfl]
            constructor
            · intro h; exact absurd h hnomem
            · rintro ⟨hb, hni⟩
              -- pos ∈ b, pos ≠ i, but the filtered bucket is empty
              exfalso
              have : pos ∈ b.filter (fun x => x ≠ i) := by
                rw [List.mem_filter]
                refine ⟨hb, ?_⟩
                simp only [ne_eq, decide_not]
                by_cases hpi : pos = i
                · exact absurd ⟨rfl, hpi⟩ hni
                · simp [hpi]
              rw [List.isEmpty_iff] at hemp
              rw [hemp] at this
              cases this
          · rw [if_neg hemp]
            rw [bucketMem_cons_eq rfl, bucketMem_cons_eq rfl]
            rw [List.mem_filter]
            constructor
            · rintro ⟨hb, hni⟩
              refine ⟨hb, ?_⟩
              rintro ⟨-, hpi⟩
              subst hpi
              simp at hni
            · rintro ⟨hb, hni⟩
              refine ⟨hb, ?_⟩
              simp only [ne_eq, decide_not]
              by_cases hpi : pos = i
              · exact absurd ⟨rfl, hpi⟩ hni
              · simp [hpi]
        · -- k ≠ the discarded bucket's key
          by_cases hemp : (b.filter (fun x => x ≠ i)).isEmpty = true
          · rw [if_pos hemp]
            rw [bucketMem_cons_ne hk]
            constructor
            · intro h
              refine ⟨h, ?_⟩
              rintro ⟨hkk, -⟩
              exact hk hkk.symm
            · exact fun h => h.1
          · rw [if_neg hemp]
            rw [bucketMem_cons_ne hk, bucketMem_cons_ne hk]
            constructor
            · intro h
              refine ⟨h, ?_⟩
              rintro ⟨hkk, -⟩
              exact hk hkk.symm
            · exact fun h => h.1
      · rw [if_neg h0]
        by_cases hk : k' = k
        · rw [bucketMem_cons_eq hk, bucketMem_cons_eq hk]
          constructor
          · intro h
            refine ⟨h, ?_⟩
            rintro ⟨hkk, -⟩
            subst hk
            exact h0 hkk
          · exact fun h => h.1
        · rw [bucketMem_cons_ne hk, bucketMem_cons_ne hk]
          exact ih hndrest

theorem keys_bucketsAdd (bs : List (IdxKey × List Nat)) (k : IdxKey) (i : Nat) :
    (bucketsAdd bs k i).map Prod.fst =
      if bkey bs k then bs.map Prod.fst else bs.map Prod.fst ++ [k] := by
  induction bs with
  | nil => simp [bucketsAdd, bkey, blookup]
  | cons e rest ih =>
      obtain ⟨k', b⟩ := e
      unfold bucketsAdd
      by_cases h : k' = k
      · subst h
        simp [bkey, blookup]
      · rw [if_neg h]
        simp only [List.map_cons, ih]
        have : bkey ((k', b) :: rest) k = bkey rest k := by
          simp [bkey, blookup, h]
        rw [this]
        by_cases hb : bkey rest k = true <;> simp [hb]

theorem keys_bucketsDiscard_sublist (bs : List (IdxKey × List Nat)) (k : IdxKey) (i : Nat) :
    ((bucketsDiscard bs k i).map Prod.fst).Sublist (bs.map Prod.fst) := by
  induction bs with
  | nil => simp [bucketsDiscard]
  | cons e rest ih =>
      obtain ⟨k', b⟩ := e
      unfold bucketsDiscard
      by_cases h : k' = k
      · subst h
        rw [if_pos rfl]
        by_cases hemp : (b.filter (fun x => x ≠ i)).isEmpty = true
        · rw [if_pos hemp]
          simp only [List.map_cons]
          exact (List.sublist_cons_self _ _)
        · rw [if_neg hemp]
          simp only [List.map_cons]
          exact List.Sublist.cons₂ _ (List.Sublist.refl _)
      · rw [if_neg h]
        simp only [List.map_cons]
        exact List.Sublist.cons₂ _ ih

theorem nodup_bucketsAdd (bs : List (IdxKey × List Nat)) (k : IdxKey) (i : Nat)
    (h : (bs.map Prod.fst).Nodup) : ((bucketsAdd bs k i).map Prod.fst).Nodup := by
  rw [keys_bucketsAdd]
  by_cases hb : bkey bs k = true
  · simp [hb, h]
  · simp only [hb, Bool.false_eq_true, if_false]
    have hnotin : k ∉ bs.map Prod.fst := by
      intro hmem
      exact hb (by
        unfold bkey
        exact (blookup_isSome_iff_mem_keys bs k).mpr hmem)
    simp [List.nodup_append, h, hnotin]

theorem nodup_bucketsDiscard (bs : List (IdxKey × List Nat)) (k : IdxKey) (i : Nat)
    (h : (bs.map Prod.fst).Nodup) : ((bucketsDiscard bs k i).map Prod.fst).Nodup :=
  (keys_bucketsDiscard_sublist bs k i).nodup h

theorem getKey_set_buckets (idx : Index) (b : List (IdxKey × List Nat)) (d : Doc) :
    Index.getKey { idx with buckets := b } d = idx.getKey d := rfl

theorem get?_append_left_of_lt {l l2 : List Doc} {n : Nat} (h : n < l.length) :
    (l ++ l2).get? n = l.get? n := List.get?_append h

/-- Adding the freshly appended document at position `docs.length`
preserves the index invariant. -/
theorem IdxInv_add_fresh (idx : Index) (docs : List Doc) (d : Doc)
    (h : IdxInv idx docs) : IdxInv (idx.add_document docs.length d) (docs ++ [d]) := by
  obtain ⟨hwf, hmem⟩ := h
  have hlen : docs.get? docs.length = none := List.get?_eq_none.mpr (le_refl _)
  unfold Index.add_document
  rcases hg : idx.getKey d with _ | key
  · refine ⟨hwf, ?_⟩
    intro k pos
    rw [hmem k pos]
    constructor
    · rintro ⟨d', hd', hk'⟩
      obtain ⟨hlt, -⟩ := List.get?_eq_some.mp hd'
      exact ⟨d', by rw [List.get?_append hlt]; exact hd', hk'⟩
    · rintro ⟨d', hd', hk'⟩
      by_cases hlt : pos < docs.length
      · rw [List.get?_append hlt] at hd'
        exact ⟨d', hd', hk'⟩
      · push_neg at hlt
        rw [List.get?_append_right hlt] at hd'
        rcases hpos : pos - docs.length with _ | m
        · rw [hpos] at hd'
          simp at hd'
          subst hd'
          rw [hg] at hk'
          cases hk'
        · rw [hpos] at hd'
          simp at hd'
  · constructor
    · exact nodup_bucketsAdd _ _ _ hwf
    · intro k pos
      simp only [getKey_set_buckets]
      rw [mem_bucketsAdd]
      rw [hmem k pos]
      constructor
      · rintro (⟨d', hd', hk'⟩ | ⟨hkk, hpos⟩)
        · obtain ⟨hlt, -⟩ := List.get?_eq_some.mp hd'
          exact ⟨d', by rw [List.get?_append hlt]; exact hd', hk'⟩
        · subst hkk; subst hpos
          exact ⟨d, List.get?_concat_length docs d, hg⟩
      · rintro ⟨d', hd', hk'⟩
        by_cases hlt : pos < docs.length
        · rw [List.get?_append hlt] at hd'
          exact Or.inl ⟨d', hd', hk'⟩
        · push_neg at hlt
          rw [List.get?_append_right hlt] at hd'
          rcases hpos : pos - docs.length with _ | m
          · rw [hpos] at hd'
            simp at hd'
            subst hd'
            rw [hg] at hk'
            injection hk' with hk'
            have hpe : pos = docs.length := by omega
            exact Or.inr ⟨hk'.symm, hpe⟩
          · rw [hpos] at hd'
            simp at hd'

/-- Re-adding a live document at its own position preserves the
invariant (used by the `create_index` backfill over existing indexes). -/
theorem IdxInv_add_existing (idx : Index) (docs : List Doc) (pos0 : Nat) (d : Doc)
    (h : IdxInv idx docs) (hd : docs.get? pos0 = some d) :
    IdxInv (idx.add_document pos0 d) docs := by
  obtain ⟨hwf, hmem⟩ := h
  unfold Index.add_document
  rcases hg : idx.getKey d with _ | key
  · exact ⟨hwf, hmem⟩
  · constructor
    · exact nodup_bucketsAdd _ _ _ hwf
    · intro k pos
      simp only [getKey_set_buckets]
      rw [mem_bucketsAdd]
      rw [hmem k pos]
      constructor
      · rintro (hx | ⟨hkk, hpos⟩)
        · exact hx
        · subst hkk; subst hpos
          exact ⟨d, hd, hg⟩
      · exact Or.inl

/-- `update_document` at a live position preserves the invariant for the
pointwise-updated document list. -/
theorem IdxInv_update (idx : Index) (docs : List Doc) (i : Nat) (dOld dNew : Doc)
    (h : IdxInv idx docs) (hd : docs.get? i = some dOld) :
    IdxInv (idx.update_document i dOld dNew) (docs.set i dNew) := by
  obtain ⟨hwf, hmem⟩ := h
  obtain ⟨hilt, -⟩ := List.get?_eq_some.mp hd
  unfold Index.update_document
  dsimp only
  by_cases heq : idx.getKey dOld = idx.getKey dNew
  · rw [if_pos heq]
    refine ⟨hwf, ?_⟩
    intro k pos
    rw [hmem k pos]
    by_cases hpi : pos = i
    · subst hpi
      constructor
      · rintro ⟨d', hd', hk'⟩
        rw [hd] at hd'
        injection hd' with hd'
        subst hd'
        exact ⟨dNew, List.get?_set_eq_of_lt dNew hilt, by rw [← heq]; exact hk'⟩
      · rintro ⟨d', hd', hk'⟩
        rw [List.get?_set_eq_of_lt dNew hilt] at hd'
        injection hd' with hd'
        subst hd'
        exact ⟨dOld, hd, by rw [heq]; exact hk'⟩
    · constructor
      · rintro ⟨d', hd', hk'⟩
        exact ⟨d', by rw [List.get?_set_ne dNew docs (fun hh => hpi hh.symm)]; exact hd', hk'⟩
      · rintro ⟨d', hd', hk'⟩
        rw [List.get?_set_ne dNew docs (fun hh => hpi hh.symm)] at hd'
        exact ⟨d', hd', hk'⟩
  · rw [if_neg heq]
    cases hgo : idx.getKey dOld with
    | none =>
        cases hgn : idx.getKey dNew with
        | none => rw [hgo, hgn] at heq; exact absurd rfl heq
        | some kn =>
            dsimp only
            constructor
            · exact nodup_bucketsAdd _ _ _ hwf
            · intro k pos
              simp only [getKey_set_buckets]
              rw [mem_bucketsAdd, hmem k pos]
              by_cases hpi : pos = i
              · subst hpi
                constructor
                · rintro (⟨d', hd', hk'⟩ | ⟨hkk, -⟩)
                  · rw [hd] at hd'
                    injection hd' with hd'
                    subst hd'
                    rw [hgo] at hk'
                    cases hk'
                  · subst hkk
                    exact ⟨dNew, List.get?_set_eq_of_lt dNew hilt, hgn⟩
                · rintro ⟨d', hd', hk'⟩
                  rw [List.get?_set_eq_of_lt dNew hilt] at hd'
                  injection hd' with hd'
                  subst hd'
                  rw [hgn] at hk'
                  injection hk' with hk'
                  exact Or.inr ⟨hk'.symm, rfl⟩
              · constructor
                · rintro (⟨d', hd', hk'⟩ | ⟨-, hpos⟩)
                  · exact ⟨d',
                      by rw [List.get?_set_ne dNew docs (fun hh => hpi hh.symm)]; exact hd', hk'⟩
                  · exact absurd hpos hpi
                · rintro ⟨d', hd', hk'⟩
                  rw [List.get?_set_ne dNew docs (fun hh => hpi hh.symm)] at hd'
                  exact Or.inl ⟨d', hd', hk'⟩
    | some ko =>
        have hndd : ((bucketsDiscard idx.buckets ko i).map Prod.fst).Nodup :=
          nodup_bucketsDiscard _ _ _ hwf
        cases hgn : idx.getKey dNew with
        | none =>
            dsimp only
            constructor
            · exact hndd
            · intro k pos
              simp only [getKey_set_buckets]
              rw [mem_bucketsDiscard _ _ _ hwf, hmem k pos]
              by_cases hpi : pos = i
              · subst hpi
                constructor
                · rintro ⟨⟨d', hd', hk'⟩, hni⟩
                  rw [hd] at hd'
                  injection hd' with hd'
                  subst hd'
                  rw [hgo] at hk'
                  injection hk' with hk'
                  exact absurd ⟨hk'.symm, rfl⟩ hni
                · rintro ⟨d', hd', hk'⟩
                  rw [List.get?_set_eq_of_lt dNew hilt] at hd'
                  injection hd' with hd'
                  subst hd'
                  rw [hgn] at hk'
                  cases hk'
              · constructor
                · rintro ⟨⟨d', hd', hk'⟩, -⟩
                  exact ⟨d',
                    by rw [List.get?_set_ne dNew docs (fun hh => hpi hh.symm)]; exact hd', hk'⟩
                · rintro ⟨d', hd', hk'⟩
                  rw [List.get?_set_ne dNew docs (fun hh => hpi hh.symm)] at hd'
                  exact ⟨⟨d', hd', hk'⟩, fun hni => hpi hni.2⟩
        | some kn =>
            dsimp only
            constructor
            · exact nodup_bucketsAdd _ _ _ hndd
            · intro k pos
              simp only [getKey_set_buckets]
              rw [mem_bucketsAdd, mem_bucketsDiscard _ _ _ hwf, hmem k pos]
              by_cases hpi : pos = i
              · subst hpi
                constructor
                · rintro (⟨⟨d', hd', hk'⟩, hni⟩ | ⟨hkk, -⟩)
                  · rw [hd] at hd'
                    injection hd' with hd'
                    subst hd'
                    rw [hgo] at hk'
                    injection hk' with hk'
                    exact absurd ⟨hk'.symm, rfl⟩ hni
                  · subst hkk
                    exact ⟨dNew, List.get?_set_eq_of_lt dNew hilt, hgn⟩
                · rintro ⟨d', hd', hk'⟩
                  rw [List.get?_set_eq_of_lt dNew hilt] at hd'
                  injection hd' with hd'
                  subst hd'
                  rw [hgn] at hk'
                  injection hk' with hk'
                  exact Or.inr ⟨hk'.symm, rfl⟩
              · constructor
                · rintro (⟨⟨d', hd', hk'⟩, -⟩ | ⟨-, hpos⟩)
                  · exact ⟨d',
                      by rw [List.get?_set_ne dNew docs (fun hh => hpi hh.symm)]; exact hd', hk'⟩
                  · exact absurd hpos hpi
                · rintro ⟨d', hd', hk'⟩
                  rw [List.get?_set_ne dNew docs (fun hh => hpi hh.symm)] at hd'
                  exact Or.inl ⟨⟨d', hd', hk'⟩, fun hni => hpi hni.2⟩

theorem MgrInv_add_fresh (mgr : IndexManager) (docs : List Doc) (d : Doc)
    (h : MgrInv mgr docs) : MgrInv (mgr.add_document docs.length d) (docs ++ [d]) := by
  intro e he
  unfold IndexManager.add_document at he
  rw [List.mem_map] at he
  obtain ⟨e0, he0, rfl⟩ := he
  exact IdxInv_add_fresh e0.2 docs d (h e0 he0)

theorem MgrInv_add_existing (mgr : IndexManager) (docs : List Doc) (pos0 : Nat) (d : Doc)
    (h : MgrInv mgr docs) (hd : docs.get? pos0 = some d) :
    MgrInv (mgr.add_document pos0 d) docs := by
  intro e he
  unfold IndexManager.add_document at he
  rw [List.mem_map] at he
  obtain ⟨e0, he0, rfl⟩ := he
  exact IdxInv_add_existing e0.2 docs pos0 d (h e0 he0) hd

theorem MgrInv_update_step (mgr : IndexManager) (docs : List Doc) (i : Nat) (dOld dNew : Doc)
    (h : MgrInv mgr docs) (hd : docs.get? i = some dOld) :
    MgrInv (mgr.update_document i dOld dNew) (docs.set i dNew) := by
  intro e he
  unfold IndexManager.update_document at he
  rw [List.mem_map] at he
  obtain ⟨e0, he0, rfl⟩ := he
  exact IdxInv_update e0.2 docs i dOld dNew (h e0 he0) hd

theorem set_append_cons {α : Type} (pre : List α) (x y : α) (ds : List α) :
    (pre ++ x :: ds).set pre.length y = pre ++ y :: ds := by
  induction pre with
  | nil => rfl
  | cons a as ih => simp [List.set, ih]

theorem MgrInv_updateCalls (p : Doc → Bool) (fields : Doc) :
    ∀ (suffix pre : List Doc) (mgr : IndexManager),
      MgrInv mgr (pre ++ suffix) →
      MgrInv (applyUpdateCalls mgr (updateCalls p fields suffix pre.length))
        (pre ++ suffix.map (fun d => if p d then dmerge d fields else d)) := by
  intro suffix
  induction suffix with
  | nil =>
      intro pre mgr h
      simpa [updateCalls, applyUpdateCalls] using h
  | cons d ds ih =>
      intro pre mgr h
      by_cases hp : p d = true
      · simp only [updateCalls, hp, if_true, List.map_cons]
        have hd : (pre ++ d :: ds).get? pre.length = some d := by
          rw [List.get?_append_right (Nat.le_refl _)]
          simp
        have hstep := MgrInv_update_step mgr (pre ++ d :: ds) pre.length d
          (dmerge d fields) h hd
        rw [set_append_cons] at hstep
        have hstep2 : MgrInv (mgr.update_document pre.length d (dmerge d fields))
            ((pre ++ [dmerge d fields]) ++ ds) := by
          rw [List.append_assoc]
          exact hstep
        have hrec := ih (pre ++ [dmerge d fields])
          (mgr.update_document pre.length d (dmerge d fields)) hstep2
        simp only [List.length_append, List.length_cons, List.length_nil,
          List.append_assoc, List.cons_append, List.nil_append] at hrec
        simpa [applyUpdateCalls, hp] using hrec
      · rw [Bool.not_eq_true] at hp
        simp only [updateCalls, hp, Bool.false_eq_true, if_false, List.map_cons]
        have hstep2 : MgrInv mgr ((pre ++ [d]) ++ ds) := by
          rw [List.append_assoc]
          exact h
        have hrec := ih (pre ++ [d]) mgr hstep2
        simp only [List.length_append, List.length_cons, List.length_nil,
          List.append_assoc, List.cons_append, List.nil_append] at hrec
        simpa [applyUpdateCalls, hp] using hrec

theorem drop_get?_head (docs : List Doc) (j : Nat) (d : Doc) (ds : List Doc)
    (hdrop : docs.drop j = d :: ds) : docs.get? j = some d := by
  have h := List.get?_drop docs j 0
  rw [hdrop] at h
  simpa using h.symm

theorem drop_succ_of_drop_cons (docs : List Doc) (j : Nat) (d : Doc) (ds : List Doc)
    (hdrop : docs.drop j = d :: ds) : docs.drop (j + 1) = ds := by
  have h : docs.drop (j + 1) = (docs.drop j).drop 1 := by
    rw [List.drop_drop]
  rw [h, hdrop]
  rfl

theorem enumFrom_live (docs : List Doc) :
    ∀ (suffix : List Doc) (j : Nat), docs.drop j = suffix →
      ∀ pr ∈ List.enumFrom j suffix, docs.get? pr.1 = some pr.2 := by
  intro suffix
  induction suffix with
  | nil =>
      intro j _ pr hpr
      simp [List.enumFrom] at hpr
  | cons d ds ih =>
      intro j hdrop pr hpr
      simp only [List.enumFrom, List.mem_cons] at hpr
      rcases hpr with rfl | hpr
      · exact drop_get?_head docs j d ds hdrop
      · exact ih (j + 1) (drop_succ_of_drop_cons docs j d ds hdrop) pr hpr

theorem MgrInv_readd_fold (docs : List Doc) :
    ∀ (l : List (Nat × Doc)) (mgr : IndexManager),
      (∀ pr ∈ l, docs.get? pr.1 = some pr.2) → MgrInv mgr docs →
      MgrInv (l.foldl (fun m pr => IndexManager.add_document m pr.1 pr.2) mgr) docs := by
  intro l
  induction l with
  | nil => intro mgr _ h; exact h
  | cons pr ps ih =>
      intro mgr hl h
      simp only [List.foldl_cons]
      exact ih _ (fun e he => hl e (List.mem_cons_of_mem _ he))
        (MgrInv_add_existing mgr docs pr.1 pr.2 h (hl pr (List.mem_cons_self _ _)))

theorem Idx_backfill (docs : List Doc) :
    ∀ (suffix : List Doc) (j : Nat) (idx : Index),
      docs.drop j = suffix →
      IdxWF idx →
      (∀ k pos, bucketMem idx.buckets k pos ↔
        (pos < j ∧ ∃ d, docs.get? pos = some d ∧ idx.getKey d = some k)) →
      IdxInv ((List.enumFrom j suffix).foldl (fun ix pr => ix.add_document pr.1 pr.2) idx)
        docs := by
  intro suffix
  induction suffix with
  | nil =>
      intro j idx hdrop hwf hupto
      show IdxInv idx docs
      refine ⟨hwf, ?_⟩
      intro k pos
      rw [hupto k pos]
      have hlen : docs.length ≤ j := List.drop_eq_nil_iff_le.mp hdrop
      constructor
      · rintro ⟨-, hcore⟩
        exact hcore
      · rintro ⟨d, hd, hk⟩
        obtain ⟨hlt, -⟩ := List.get?_eq_some.mp hd
        exact ⟨by omega, d, hd, hk⟩
  | cons d ds ih =>
      intro j idx hdrop hwf hupto
      have hj : docs.get? j = some d := drop_get?_head docs j d ds hdrop
      have hdrop' : docs.drop (j + 1) = ds := drop_succ_of_drop_cons docs j d ds hdrop
      have hwf1 : IdxWF (idx.add_document j d) := by
        unfold Index.add_document IdxWF
        rcases idx.getKey d with _ | key
        · exact hwf
        · exact nodup_bucketsAdd _ _ _ hwf
      have hupto1 : ∀ k pos, bucketMem (idx.add_document j d).buckets k pos ↔
          (pos < j + 1 ∧ ∃ d2, docs.get? pos = some d2 ∧
            (idx.add_document j d).getKey d2 = some k) := by
        intro k pos
        unfold Index.add_document
        rcases hg : idx.getKey d with _ | key
        · rw [hupto k pos]
          constructor
          · rintro ⟨hlt, hcore⟩
            exact ⟨by omega, hcore⟩
          · rintro ⟨hlt, d2, hd2, hk2⟩
            by_cases hpj : pos = j
            · subst hpj
              rw [hj] at hd2
              injection hd2 with hd2
              subst hd2
              rw [hg] at hk2
              cases hk2
            · exact ⟨by omega, d2, hd2, hk2⟩
        · simp only [getKey_set_buckets]
          rw [mem_bucketsAdd, hupto k pos]
          constructor
          · rintro (⟨hlt, hcore⟩ | ⟨hkk, hpos⟩)
            · exact ⟨by omega, hcore⟩
            · subst hkk
              subst hpos
              exact ⟨by omega, d, hj, hg⟩
          · rintro ⟨hlt, d2, hd2, hk2⟩
            by_cases hpj : pos = j
            · subst hpj
              rw [hj] at hd2
              injection hd2 with hd2
              subst hd2
              rw [hg] at hk2
              injection hk2 with hk2
              exact Or.inr ⟨hk2.symm, rfl⟩
            · exact Or.inl ⟨by omega, d2, hd2, hk2⟩
      exact ih (j + 1) (idx.add_document j d) hdrop' hwf1 hupto1

theorem foldl_add_document_map (l : List (Nat × Doc)) :
    ∀ (mgr : IndexManager),
      l.foldl (fun m pr => IndexManager.add_document m pr.1 pr.2) mgr =
      mgr.map (fun e => (e.1, l.foldl (fun ix pr => Index.add_document ix pr.1 pr.2) e.2)) := by
  induction l with
  | nil => intro mgr; simp
  | cons pr ps ih =>
      intro mgr
      simp only [List.foldl_cons]
      rw [ih]
      unfold IndexManager.add_document
      rw [List.map_map]
      rfl

theorem Idx_readd_fold (docs : List Doc) :
    ∀ (l : List (Nat × Doc)) (idx : Index),
      (∀ pr ∈ l, docs.get? pr.1 = some pr.2) → IdxInv idx docs →
      IdxInv (l.foldl (fun ix pr => ix.add_document pr.1 pr.2) idx) docs := by
  intro l
  induction l with
  | nil => intro idx _ h; exact h
  | cons pr ps ih =>
      intro idx hl h
      simp only [List.foldl_cons]
      exact ih _ (fun e he => hl e (List.mem_cons_of_mem _ he))
        (IdxInv_add_existing idx docs pr.1 pr.2 h (hl pr (List.mem_cons_self _ _)))

theorem MgrInv_after_createIndex (mgr0 : IndexManager) (docs : List Doc)
    (fields : List String) (hm : MgrInv mgr0 docs) :
    MgrInv (docs.enum.foldl (fun m pr => IndexManager.add_document m pr.1 pr.2)
      (mgr0.create_index fields)) docs := by
  rw [foldl_add_document_map]
  intro e he
  rw [List.mem_map] at he
  obtain ⟨e0, he0, rfl⟩ := he
  have hlive : ∀ pr ∈ docs.enum, docs.get? pr.1 = some pr.2 := by
    rw [List.enum_eq_enumFrom]
    exact enumFrom_live docs docs 0 (by simp)
  unfold IndexManager.create_index at he0
  by_cases hb : bkey mgr0 (sortedFields fields) = true
  · rw [if_pos hb] at he0
    exact Idx_readd_fold docs docs.enum e0.2 hlive (hm e0 he0)
  · rw [if_neg hb] at he0
    rw [List.mem_append] at he0
    rcases he0 with he0 | he0
    · exact Idx_readd_fold docs docs.enum e0.2 hlive (hm e0 he0)
    · simp only [List.mem_singleton] at he0
      subst he0
      have hbf := Idx_backfill docs docs 0 ⟨fields, []⟩ (by simp)
        (by simp [IdxWF])
        (fun k pos => by
          constructor
          · intro hmem'
            exact absurd hmem' (bucketMem_nil k pos)
          · rintro ⟨hlt, -⟩
            omega)
      rw [List.enum_eq_enumFrom]
      exact hbf

theorem DBInv_insert (s : DBState) (docs : List Doc) (d : Doc)
    (hc : s.collections = [("default", docs)]) (hm : MgrInv s.indexes docs) :
    ∃ docs2, (AtomicDB.insert s d "default").2.collections = [("default", docs2)] ∧
      MgrInv (AtomicDB.insert s d "default").2.indexes docs2 := by
  unfold AtomicDB.insert
  rcases hv : Schema.validate_document s.schemas "default" d with e | u
  · exact ⟨docs, hc, hm⟩
  · have hak : akey s.collections "default" = true := by
      rw [hc]; rfl
    have hal : alookup s.collections "default" = some docs := by
      rw [hc]; rfl
    dsimp only
    rw [hak]
    simp only [if_true, hal]
    refine ⟨docs ++ [d], ?_, ?_⟩
    · rw [hc]
      simp [aset]
    · have hlen : ((some docs).getD [] ++ [d]).length - 1 = docs.length := by
        simp
      rw [hlen]
      exact MgrInv_add_fresh s.indexes docs d hm

theorem DBInv_update (s : DBState) (docs : List Doc) (fields : Doc) (p : Doc → Bool)
    (hc : s.collections = [("default", docs)]) (hm : MgrInv s.indexes docs) :
    ∃ docs2,
      (AtomicDB.update s fields (.callable p) "default").2.collections =
        [("default", docs2)] ∧
      MgrInv (AtomicDB.update s fields (.callable p) "default").2.indexes docs2 := by
  rw [update_eq_updateFull]
  unfold updateFull
  have hal : alookup s.collections "default" = some docs := by
    rw [hc]; rfl
  rw [hal]
  dsimp only
  rw [updateScan_spec p (QueryArg.callable p).matcher (fun d => rfl) fields docs 0 s.indexes]
  dsimp only
  have hinv := MgrInv_updateCalls p fields docs [] s.indexes (by simpa using hm)
  simp only [List.nil_append, List.length_nil] at hinv
  by_cases hcnt : 0 < docs.countP p <;> simp only [hcnt, if_true, if_false]
  · exact ⟨docs.map (fun d => if p d then dmerge d fields else d),
      by rw [hc]; simp [aset], hinv⟩
  · exact ⟨docs.map (fun d => if p d then dmerge d fields else d),
      by rw [hc]; simp [aset], hinv⟩

theorem DBInv_createIndex (s : DBState) (docs : List Doc) (fields : List String)
    (hc : s.collections = [("default", docs)]) (hm : MgrInv s.indexes docs) :
    (AtomicDB.create_index s fields).collections = [("default", docs)] ∧
    MgrInv (AtomicDB.create_index s fields).indexes docs := by
  unfold AtomicDB.create_index
  dsimp only
  refine ⟨hc, ?_⟩
  rw [hc]
  show MgrInv (docs.enum.foldl (fun m pr => IndexManager.add_document m pr.1 pr.2)
    (s.indexes.create_index fields)) docs
  exact MgrInv_after_createIndex s.indexes docs fields hm

theorem dbInv_runOps (ops : List DBOp) :
    ∃ docs, (runOps ops).collections = [("default", docs)] ∧
      MgrInv (runOps ops).indexes docs := by
  suffices h : ∀ (ops2 : List DBOp) (s : DBState),
      (∃ docs, s.collections = [("default", docs)] ∧ MgrInv s.indexes docs) →
      (∃ docs, (ops2.foldl applyDBOp s).collections = [("default", docs)] ∧
        MgrInv (ops2.foldl applyDBOp s).indexes docs) by
    exact h ops initDB ⟨[], rfl, fun e he => absurd he (List.not_mem_nil e)⟩
  intro ops2
  induction ops2 with
  | nil => intro s h; exact h
  | cons op rest ih =>
      intro s h
      obtain ⟨docs, hc, hm⟩ := h
      simp only [List.foldl_cons]
      apply ih
      cases op with
      | opInsert d => exact DBInv_insert s docs d hc hm
      | opUpdate fields p => exact DBInv_update s docs fields p hc hm
      | opCreateIndex fields =>
          obtain ⟨h1, h2⟩ := DBInv_createIndex s docs fields hc hm
          exact ⟨docs, h1, h2⟩

/-- C3 amended: for every finite sequence of insert, update and
index-creation operations on the default collection (no removals), every
created index is consistent: a position sits in the bucket of key `k`
exactly when it is a live position whose document has indexed-field tuple
`k`; consequently querying an index with any live document's current field
values returns a position whose document carries exactly those values on
the indexed fields. -/
theorem index_consistency_no_remove (ops : List DBOp) :
    ∃ docs, (runOps ops).collections = [("default", docs)] ∧
      ∀ e ∈ (runOps ops).indexes,
        (∀ k pos, bucketMem e.2.buckets k pos ↔
          ∃ d, docs.get? pos = some d ∧ e.2.getKey d = some k) ∧
        (∀ pos d k, docs.get? pos = some d → e.2.getKey d = some k →
          ∃ q, e.2.find_one k = some q ∧
            ∃ d2, docs.get? q = some d2 ∧ e.2.getKey d2 = some k) := by
  obtain ⟨docs, hc, hm⟩ := dbInv_runOps ops
  refine ⟨docs, hc, ?_⟩
  intro e he
  obtain ⟨hwf, hmem⟩ := hm e he
  refine ⟨hmem, ?_⟩
  intro pos d k hd hk
  obtain ⟨b, hb, hpos⟩ := (hmem k pos).mpr ⟨d, hd, hk⟩
  rcases b with _ | ⟨q0, brest⟩
  · cases hpos
  · refine ⟨q0, ?_, ?_⟩
    · unfold Index.find_one
      rw [hb]
      rfl
    · exact (hmem k q0).mp ⟨q0 :: brest, hb, List.mem_cons_self _ _⟩

/-- C3 counterexample: after `create_index(["a"])`, `insert({"a": 1})`,
`insert({"a": 2})`, `remove(a == 1)` — a sequence of exactly the
insert/remove operations the claim quantifies over — the only index bucket
(key `(2,)`) still holds position 1, but the surviving collection is
`[{"a": 2}]` and has no document at position 1: the bucket contains a
position for a document that no longer has matching field values, because
`remove` never re-keys the entries of documents that shift down. -/
theorem removed_position_stale :
    c3Removed.indexes = [(["a"], ⟨["a"], [([.atom (.vint 2)], [1])]⟩)] ∧
    alookup c3Removed.collections "default" = some [[("a", .atom (.vint 2))]] ∧
    ([[("a", PyVal.atom (.vint 2))]] : List Doc).get? 1 = none := by
  refine ⟨by rfl, by rfl, by rfl⟩

end AtomicDb
